import Mathlib

/-!
Verification of the flytrap address-space bookkeeping core.

This file gives a shallow embedding, in Lean 4, of the two data structures
of the flytrap repository:

* the IPv4 address-set aggregator `src/lib/libft/ft_ip4agg.c`
  (a compressing 16-way trie over 32-bit addresses), and
* the ARP resolution tracker and packet analyzer `src/sbin/flytrap/arp.c`
  (a fixed-depth 16-way trie whose /32 leaves carry a claim/probe state
  machine).

C pointers and in-place mutation are rendered functionally: a mutating
routine becomes a function returning the updated tree, and "hold a pointer
to a node and write its fields" becomes "re-descend the (unique) path to
the node and rewrite it there".  Machine integers are modelled as `Nat`
with explicit `% 2^32` / `% 2^64` where the C relies on wrap-around.
Recursion that the C bounds by the 32-bit key depth (at most 8 levels of
4 bits) is rendered with an explicit fuel argument; fuel 9 is enough from
the root, and the fuel-0 case is unreachable for well-formed trees.
Allocation (`calloc`) is modelled as always succeeding; allocation-failure
paths (`return -1` after a failed `calloc`) are therefore absent.
-/

/-! ## Address-set aggregator (`ft_ip4agg.c`) -/

/-- Tunable: how many bits to process at a time (`ip4a_bits`, default 4). -/
def ip4a_bits : Nat := 4

/-- Tunable: minimum prefix length (`ip4a_minplen`, default 8). -/
def ip4a_minplen : Nat := 8

/-- Tunable: maximum prefix length (`ip4a_maxplen`, default 32). -/
def ip4a_maxplen : Nat := 32

/-- `0xffffffff`, the constant the C shifts to obtain host masks. -/
def u32max : Nat := 0xffffffff

/-- Modulus for 64-bit unsigned arithmetic (`unsigned long` / `uint64_t`). -/
def u64mod : Nat := 2 ^ 64

/-- Modulus for 32-bit unsigned arithmetic (`uint32_t`). -/
def u32mod : Nat := 2 ^ 32

/-- The scalar fields of `struct ip4a_node`: network address, prefix
length, leaf flag and coverage count.  The 16 child slots are kept
separately in the tree type `Ip4a`. -/
structure Ip4aRec where
  addr : Nat
  plen : Nat
  leaf : Bool
  coverage : Nat
deriving DecidableEq, Repr

/-- `struct ip4a_node`: scalar fields plus 16 child-pointer slots
(absent children are `none`). -/
inductive Ip4a : Type where
  | node : Ip4aRec → List (Option Ip4a) → Ip4a

/-- Scalar fields of a node. -/
def Ip4a.val : Ip4a → Ip4aRec
  | .node v _ => v

/-- Child slots of a node. -/
def Ip4a.sub : Ip4a → List (Option Ip4a)
  | .node _ s => s

/-- `ip4a_new`: a single leaf node, address 0, prefix length 0,
coverage 0 (the `calloc` zero fill, with `leaf = 1` set). -/
def ip4a_new : Ip4a :=
  .node ⟨0, 0, true, 0⟩ (List.replicate 16 none)

/-- The body of the child loop of `ip4a_insert`, one iteration: fetch or
create (`calloc`, zero filled, leaf flag set) the child at index `i`,
apply the recursive insertion `rec` to it, store it back and add its
total coverage into the accumulated coverage; creating a child clears
the node's leaf flag.  The accumulator carries the child-slot list, the
running coverage and the leaf flag. -/
def ip4a_step (rec : Ip4a → Ip4a) (v : Ip4aRec) (splen : Nat)
    (acc : List (Option Ip4a) × Nat × Bool) (i : Nat) :
    List (Option Ip4a) × Nat × Bool :=
  match acc.1.getD i none with
  | none =>
    let sn : Ip4a :=
      .node ⟨v.addr ||| (i <<< (32 - splen)), splen, true, 0⟩
        (List.replicate 16 none)
    let sn' := rec sn
    (acc.1.set i (some sn'), (acc.2.1 + sn'.val.coverage) % u64mod, false)
  | some sn =>
    let sn' := rec sn
    (acc.1.set i (some sn'), (acc.2.1 + sn'.val.coverage) % u64mod, acc.2.2)

/-- `ip4a_insert`: add the inclusive range `[first0, last0]` to the tree.
Faithful to the C: clip the range to the node's subnet; collapse to a
full leaf when the clipped range covers the whole subnet or the maximum
prefix length would be exceeded (both only at `plen ≥ ip4a_minplen`);
otherwise descend into each covered child, creating absent children,
adding each child's (total) coverage into this node's coverage after the
recursive call, and finally aggregate when the accumulated coverage
reaches the subnet size (`mincov` is computed in `uint32_t`, so it is 0
at the root and aggregation is skipped there).  `calloc` is modelled as
always succeeding, so the C's `-1` paths do not appear and the function
is total; fuel 0 (never reached from the root with fuel 9) returns the
node unchanged. -/
def ip4a_insert : Nat → Ip4a → Nat → Nat → Ip4a
  | 0, n, _, _ => n
  | fuel + 1, .node v sub, first0, last0 =>
    let mask := u32max >>> v.plen
    let first := max first0 v.addr
    let last := min last0 (v.addr ||| mask)
    if v.plen ≥ ip4a_minplen ∧
        ((first = v.addr ∧ last = (v.addr ||| mask)) ∨
          v.plen + ip4a_bits > ip4a_maxplen) then
      .node ⟨v.addr, v.plen, true, mask + 1⟩ (List.replicate 16 none)
    else
      let splen := v.plen + ip4a_bits
      let fsub := (first >>> (32 - splen)) % 16
      let lsub := (last >>> (32 - splen)) % 16
      let r := (List.range' fsub (lsub + 1 - fsub)).foldl
        (ip4a_step (fun sn => ip4a_insert fuel sn first last) v splen)
        (sub, v.coverage, v.leaf)
      let mincov := (mask + 1) % u32mod
      if v.plen ≥ ip4a_minplen ∧ mincov > 0 ∧ r.2.1 ≥ mincov then
        .node ⟨v.addr, v.plen, true, mask + 1⟩ (List.replicate 16 none)
      else
        .node ⟨v.addr, v.plen, r.2.2, r.2.1⟩ r.1

/-- `ip4a_lookup`: membership test for a single address.  True when the
address is inside the node's subnet and either the node's coverage equals
the full subnet size or the lookup succeeds in the child selected by the
next nibble. -/
def ip4a_lookup : Nat → Ip4a → Nat → Bool
  | 0, _, _ => false
  | fuel + 1, .node v sub, addr =>
    let mask := u32max >>> v.plen
    if v.addr ≤ addr ∧ addr ≤ (v.addr ||| mask) then
      if v.coverage = mask + 1 then true
      else
        match sub.getD ((addr >>> (32 - v.plen - ip4a_bits)) % 16) none with
        | some c => ip4a_lookup fuel c addr
        | none => false
    else false

/-- `ip4a_count`: the root's coverage. -/
def ip4a_count (n : Ip4a) : Nat := n.val.coverage

/-- `ip4a_fprint`: the ordered dump, as the list of `(address, prefix
length)` pairs of the leaf nodes, children visited in increasing index
order. -/
def ip4a_dump : Nat → Ip4a → List (Nat × Nat)
  | 0, _ => []
  | fuel + 1, .node v sub =>
    if v.leaf then [(v.addr, v.plen)]
    else ((List.range 16).map (fun i =>
      match sub.getD i none with
      | some c => ip4a_dump fuel c
      | none => [])).flatten

/-- Fuel sufficient for any well-formed tree (depth at most 8 levels). -/
def ip4aFuel : Nat := 9

/-- Fold a list of ranges into a fresh tree via `ip4a_new` and
`ip4a_insert` (every insertion succeeds: allocation is modelled as
infallible). -/
def ip4aRun (rs : List (Nat × Nat)) : Ip4a :=
  rs.foldl (fun t r => ip4a_insert ip4aFuel t r.1 r.2) ip4a_new

/-- Membership of an address in a list of inclusive ranges (the
specification-side notion "lies within at least one inserted range"). -/
def memRanges (rs : List (Nat × Nat)) (a : Nat) : Bool :=
  rs.any (fun r => r.1 ≤ a ∧ a ≤ r.2)

/-! ### Aggregator: concrete evaluations

The C accumulates `n->coverage += sn->coverage` after each recursive
insertion, adding the child's *total* coverage rather than the increase
produced by this insertion.  Re-inserting a range therefore inflates the
coverage of every node above the minimum-prefix boundary, and once an
internal node's inflated coverage reaches the subnet size the aggregation
step collapses a partially covered subtree into a full leaf.  The
evaluations below exhibit both consequences. -/

/-- C1: inserting `[0,7]` twice inflates coverage until the `/28` node
collapses to a full leaf; `ip4a_lookup` then reports address 8 as a
member although it lies in no inserted range.  This contradicts the
lookup-correctness property (and the code's own description of
`coverage` as "addresses in subtree"). -/
theorem c1_lookup_false_positive :
    ip4a_lookup ip4aFuel (ip4aRun [(0, 7), (0, 7)]) 8 = true ∧
    memRanges [(0, 7), (0, 7)] 8 = false := by decide

/-- C2: inserting the range `[0,7]` twice in a row yields `ip4a_count`
72 (vs 8 for a single insertion) and an ordered dump of one `/28` leaf
(vs eight `/32` leaves), refuting idempotence of both the count and the
dump. -/
theorem c2_double_insert_not_idempotent :
    ip4a_count (ip4aRun [(0, 7), (0, 7)]) = 72 ∧
    ip4a_count (ip4aRun [(0, 7)]) = 8 ∧
    ip4a_dump ip4aFuel (ip4aRun [(0, 7), (0, 7)]) = [(0, 28)] ∧
    ip4a_dump ip4aFuel (ip4aRun [(0, 7)]) =
      [(0, 32), (1, 32), (2, 32), (3, 32), (4, 32), (5, 32), (6, 32), (7, 32)] := by
  decide

/-- C5 (counterexample): the tree built by `ip4a_new` alone — reachable
with the empty sequence of insertions — is a leaf with coverage 0 and
prefix length 0, so its coverage differs from the full subnet size
`2^(32-0)`. -/
theorem c5_fresh_root_leaf_not_full :
    (ip4a_new).val.leaf = true ∧
    (ip4a_new).val.coverage ≠ 2 ^ (32 - (ip4a_new).val.plen) := by decide


/-! ### Aggregator: leaf-coverage invariant -/

/-- `getD` of a list of `none`s is `none`. -/
theorem getD_replicate_none {α : Type} (k i : Nat) :
    (List.replicate k (none : Option α)).getD i none = none := by
  induction k generalizing i with
  | zero => simp [List.getD]
  | succ k ih =>
    cases i with
    | zero => simp [List.replicate]
    | succ j => simp [List.replicate, ih j]

/-- `getD` of a list whose members are all `none` is `none`. -/
theorem getD_of_all_none {α : Type} (l : List (Option α))
    (h : ∀ o ∈ l, o = none) (i : Nat) : l.getD i none = none := by
  induction l generalizing i with
  | nil => simp [List.getD]
  | cons x xs ih =>
    cases i with
    | zero => simpa using h x (by simp)
    | succ j => exact (List.getD_cons_succ).trans (ih (fun o ho => h o (by simp [ho])) j)

/-- `getD` after `set` at the written index. -/
theorem getD_set_self {α : Type} (l : List α) (i : Nat) (a d : α)
    (h : i < l.length) : (l.set i a).getD i d = a := by
  induction l generalizing i with
  | nil => simp at h
  | cons x xs ih =>
    cases i with
    | zero => simp
    | succ j => simpa using ih j (by simpa using h)

/-- `getD` after `set` at another index. -/
theorem getD_set_ne {α : Type} (l : List α) (i j : Nat) (a d : α)
    (h : i ≠ j) : (l.set i a).getD j d = l.getD j d := by
  induction l generalizing i j with
  | nil => simp
  | cons x xs ih =>
    cases i with
    | zero =>
      cases j with
      | zero => exact absurd rfl h
      | succ j' => simp
    | succ i' =>
      cases j with
      | zero => simp
      | succ j' => simpa using ih i' j' (by omega)

/-- Invariant preservation through a left fold. -/
theorem foldl_inv {α β : Type} (P : β → Prop) (g : β → α → β)
    (xs : List α) (b : β) (hb : P b) (hg : ∀ b a, P b → P (g b a)) :
    P (xs.foldl g b) := by
  induction xs generalizing b with
  | nil => exact hb
  | cons x xs ih => exact ih (g b x) (hg b x hb)

/-- The host mask plus one is the subnet size: for `p ≤ 32`,
`(0xffffffff >>> p) + 1 = 2^(32-p)`. -/
theorem mask_succ_eq_pow (p : Nat) (hp : p ≤ 32) :
    (u32max >>> p) + 1 = 2 ^ (32 - p) := by
  have h2 : (2 : Nat) ^ 32 = 2 ^ p * 2 ^ (32 - p) := by
    rw [← pow_add]; congr 1; omega
  have hq : 1 ≤ (2 : Nat) ^ (32 - p) := Nat.one_le_two_pow
  have hx : 1 ≤ (2 : Nat) ^ p := Nat.one_le_two_pow
  have hu : u32max = 2 ^ p * 2 ^ (32 - p) - 1 := by
    rw [← h2]; norm_num [u32max]
  rw [hu, Nat.shiftRight_eq_div_pow]
  rcases Nat.exists_eq_add_of_le hq with ⟨q', hq'⟩
  have hsplit : 2 ^ p * 2 ^ (32 - p) - 1 = 2 ^ p * q' + (2 ^ p - 1) := by
    rw [hq', Nat.mul_add, Nat.mul_one]; omega
  rw [hsplit, Nat.mul_add_div (by omega), Nat.div_eq_of_lt (by omega)]
  omega

/-- Structural well-formedness of an aggregator tree: 16 child slots,
prefix length a multiple of 4 and at most 32, a leaf has no children and
coverage either 0 (never collapsed) or the full subnet size, and every
child sits one nibble deeper. -/
inductive IpWF : Ip4a → Prop where
  | mk : ∀ v sub,
      sub.length = 16 →
      v.plen ≤ 32 →
      4 ∣ v.plen →
      (v.leaf = true → (∀ o ∈ sub, o = none) ∧
        (v.coverage = 0 ∨ v.coverage = 2 ^ (32 - v.plen))) →
      (∀ i c, sub.getD i none = some c → c.val.plen = v.plen + 4) →
      (∀ i c, sub.getD i none = some c → IpWF c) →
      IpWF (.node v sub)

/-- The property claim C5 is about, in the form the code maintains:
every leaf of the tree has coverage either 0 or the full size
`2^(32 - prefix length)` of its subnet. -/
inductive LeavesOk : Ip4a → Prop where
  | mk : ∀ v sub,
      (v.leaf = true → v.coverage = 0 ∨ v.coverage = 2 ^ (32 - v.plen)) →
      (∀ i c, sub.getD i none = some c → LeavesOk c) →
      LeavesOk (.node v sub)

theorem ipWF_leavesOk : ∀ {n : Ip4a}, IpWF n → LeavesOk n := by
  intro n h
  induction h with
  | mk v sub hlen hple hdvd hleaf hchp hchw ih =>
    exact LeavesOk.mk v sub (fun hl => (hleaf hl).2) (fun i c hc => ih i c hc)

theorem ip4a_new_WF : IpWF ip4a_new := by
  refine IpWF.mk _ _ (by simp) (by simp) (by simp) ?_ ?_ ?_
  · intro _
    exact ⟨fun o ho => List.eq_of_mem_replicate ho, Or.inl rfl⟩
  all_goals
    intro i c hc
    rw [getD_replicate_none] at hc
    exact absurd hc (by simp)

/-- A freshly created child node (leaf flag set, coverage 0, no
children) is well-formed at any prefix length `splen ≤ 32` divisible
by 4. -/
theorem ip4a_fresh_WF (a splen : Nat) (hsp : splen ≤ 32) (hdvd : 4 ∣ splen) :
    IpWF (.node ⟨a, splen, true, 0⟩ (List.replicate 16 none)) := by
  refine IpWF.mk _ _ (by simp) hsp hdvd ?_ ?_ ?_
  · intro _
    exact ⟨fun o ho => List.eq_of_mem_replicate ho, Or.inl rfl⟩
  all_goals
    intro i c hc
    rw [getD_replicate_none] at hc
    exact absurd hc (by simp)

/-- `ip4a_insert` never changes the address or prefix length of the node
it is applied to. -/
theorem ip4a_insert_val_frozen (fuel : Nat) (n : Ip4a) (f l : Nat) :
    (ip4a_insert fuel n f l).val.plen = n.val.plen ∧
    (ip4a_insert fuel n f l).val.addr = n.val.addr := by
  cases fuel with
  | zero => exact ⟨rfl, rfl⟩
  | succ fuel =>
    cases n with
    | node v sub =>
      rw [ip4a_insert]
      dsimp only
      split
      · exact ⟨rfl, rfl⟩
      · split
        · exact ⟨rfl, rfl⟩
        · exact ⟨rfl, rfl⟩

/-- Folding the child loop of `ip4a_insert` preserves well-formedness of
every slot, keeps 16 slots, and can only leave the leaf flag raised if
nothing at all changed. -/
theorem ip4a_fold_inv (g : Ip4a → Ip4a) (v : Ip4aRec)
    (sub : List (Option Ip4a)) (cov0 : Nat) (is : List Nat)
    (hg : ∀ sn, IpWF sn → IpWF (g sn))
    (hgp : ∀ sn, (g sn).val.plen = sn.val.plen)
    (hsp : v.plen + 4 ≤ 32)
    (hdvd : 4 ∣ v.plen)
    (hlen : sub.length = 16)
    (hch : ∀ j c, sub.getD j none = some c → c.val.plen = v.plen + 4 ∧ IpWF c)
    (hleafnone : v.leaf = true → ∀ o ∈ sub, o = none) :
    let r := is.foldl (ip4a_step g v (v.plen + 4)) (sub, cov0, v.leaf)
    r.1.length = 16 ∧
    (∀ j c, r.1.getD j none = some c → c.val.plen = v.plen + 4 ∧ IpWF c) ∧
    (r.2.2 = true → r.1 = sub ∧ r.2.1 = cov0 ∧ v.leaf = true) := by
  intro r
  refine foldl_inv (fun acc => acc.1.length = 16 ∧
    (∀ j c, acc.1.getD j none = some c → c.val.plen = v.plen + 4 ∧ IpWF c) ∧
    (acc.2.2 = true → acc.1 = sub ∧ acc.2.1 = cov0 ∧ v.leaf = true))
    _ is (sub, cov0, v.leaf) ⟨hlen, hch, fun hl => ⟨rfl, rfl, hl⟩⟩ ?_
  intro acc i hacc
  rcases hacc with ⟨halen, hasub, haleaf⟩
  rw [ip4a_step]
  cases hslot : acc.1.getD i none with
  | none =>
    dsimp only
    refine ⟨by simpa using halen, ?_, by simp⟩
    intro j c hc
    by_cases hij : i = j
    · subst hij
      by_cases hilt : i < acc.1.length
      · rw [getD_set_self _ _ _ _ hilt] at hc
        cases hc
        exact ⟨hgp _, hg _ (ip4a_fresh_WF _ _ hsp (by omega))⟩
      · rw [List.set_eq_of_length_le (by omega)] at hc
        exact hasub i c hc
    · rw [getD_set_ne _ _ _ _ _ hij] at hc
      exact hasub j c hc
  | some sn =>
    dsimp only
    have hsn := hasub i sn hslot
    refine ⟨by simpa using halen, ?_, ?_⟩
    · intro j c hc
      by_cases hij : i = j
      · subst hij
        by_cases hilt : i < acc.1.length
        · rw [getD_set_self _ _ _ _ hilt] at hc
          cases hc
          exact ⟨(hgp sn).trans hsn.1, hg sn hsn.2⟩
        · rw [List.set_eq_of_length_le (by omega)] at hc
          exact hasub i c hc
      · rw [getD_set_ne _ _ _ _ _ hij] at hc
        exact hasub j c hc
    · intro hlf
      rcases haleaf hlf with ⟨hsubeq, _, hvleaf⟩
      have : acc.1.getD i none = none := by
        rw [hsubeq]
        exact getD_of_all_none _ (hleafnone hvleaf) i
      rw [this] at hslot
      exact absurd hslot (by simp)

/-- `ip4a_insert` preserves well-formedness, for every fuel value and
every (even ill-ordered) range. -/
theorem ip4a_insert_WF : ∀ (fuel : Nat) (n : Ip4a) (f l : Nat),
    IpWF n → IpWF (ip4a_insert fuel n f l) := by
  intro fuel
  induction fuel with
  | zero => intro n f l h; exact h
  | succ fuel ih =>
    intro n f l h
    cases h with
    | mk v sub hlen hple hdvd hleaf hchp hchw =>
      rw [ip4a_insert]
      dsimp only
      split
      · -- collapse into a full leaf covering the whole subnet
        refine IpWF.mk _ _ (by simp) hple hdvd ?_ ?_ ?_
        · intro _
          exact ⟨fun o ho => List.eq_of_mem_replicate ho,
            Or.inr (mask_succ_eq_pow v.plen hple)⟩
        all_goals
          intro i c hc
          rw [getD_replicate_none] at hc
          exact absurd hc (by simp)
      · rename_i hncoll
        have hsp : v.plen + 4 ≤ 32 := by
          by_contra hgt
          exact hncoll ⟨by simp [ip4a_minplen]; omega,
            Or.inr (by simp [ip4a_bits, ip4a_maxplen]; omega)⟩
        have hfold := ip4a_fold_inv
          (fun sn => ip4a_insert fuel sn (max f v.addr)
            (min l (v.addr ||| (u32max >>> v.plen)))) v sub v.coverage
          (List.range'
            ((max f v.addr >>> (32 - (v.plen + ip4a_bits))) % 16)
            ((min l (v.addr ||| (u32max >>> v.plen)) >>> (32 - (v.plen + ip4a_bits))) % 16 + 1 -
              (max f v.addr >>> (32 - (v.plen + ip4a_bits))) % 16))
          (fun sn hsn => ih sn _ _ hsn)
          (fun sn => (ip4a_insert_val_frozen fuel sn _ _).1)
          hsp hdvd hlen (fun j c hc => ⟨hchp j c hc, hchw j c hc⟩) (fun hl => (hleaf hl).1)
        rw [show v.plen + ip4a_bits = v.plen + 4 from rfl] at hfold ⊢
        rcases hfold with ⟨hrlen, hrsub, hrleaf⟩
        split
        · -- aggregation collapse
          refine IpWF.mk _ _ (by simp) hple hdvd ?_ ?_ ?_
          · intro _
            exact ⟨fun o ho => List.eq_of_mem_replicate ho,
              Or.inr (mask_succ_eq_pow v.plen hple)⟩
          all_goals
            intro i c hc
            rw [getD_replicate_none] at hc
            exact absurd hc (by simp)
        · refine IpWF.mk _ _ hrlen hple hdvd ?_
            (fun j c hc => (hrsub j c hc).1) (fun j c hc => (hrsub j c hc).2)
          intro hlf
          rcases hrleaf hlf with ⟨hsubeq, hcov, hvleaf⟩
          rw [hsubeq, hcov]
          exact hleaf hvleaf

/-- C5 (amended): in every tree built by `ip4a_new` followed by any
sequence of `ip4a_insert` calls, every leaf's coverage is either the
full subnet size `2^(32 - prefix_length)` or 0; 0 occurs in the
never-collapsed initial state (e.g. the fresh root). -/
theorem c5_amended_leaves_full_or_zero (rs : List (Nat × Nat)) :
    LeavesOk (ip4aRun rs) := by
  refine ipWF_leavesOk ?_
  exact foldl_inv IpWF _ rs ip4a_new ip4a_new_WF
    (fun t r _ => by exact ip4a_insert_WF ip4aFuel t r.1 r.2 (by assumption))

/-! ## Resolution tracker and packet analyzer (`arp.c`) -/

/-- An Ethernet link-layer address (`ether_addr`), six octets. -/
structure EtherAddr where
  o0 : Nat
  o1 : Nat
  o2 : Nat
  o3 : Nat
  o4 : Nat
  o5 : Nat
deriving DecidableEq, Repr

/-- The all-zero link-layer address (`calloc` zero fill; also the
"unknown" marker tested by `arp_register`). -/
def etherZero : EtherAddr := ⟨0, 0, 0, 0, 0, 0⟩

/-- The scalar fields of `struct arpn`: network address, prefix length,
claimed and reserved flags, first/last seen timestamps, and the leaf
payload (`ether`, `nreq`) of the C union.  In the C the union overlays
the child pointers with the leaf payload; only `/32` nodes use `ether`
and `nreq` and only shallower nodes use children, so splitting the union
into always-present fields is faithful. -/
structure ArpRec where
  addr : Nat
  plen : Nat
  claimed : Bool
  reserved : Bool
  first : Nat
  last : Nat
  ether : EtherAddr
  nreq : Nat
deriving DecidableEq, Repr

/-- `struct arpn`: scalar fields plus 16 child-pointer slots. -/
inductive Arpn : Type where
  | node : ArpRec → List (Option Arpn) → Arpn

/-- Scalar fields of a tracker node. -/
def Arpn.val : Arpn → ArpRec
  | .node v _ => v

/-- Child slots of a tracker node. -/
def Arpn.sub : Arpn → List (Option Arpn)
  | .node _ s => s

/-- Child slot `i` of a tracker node (`n->sub[i]`). -/
def Arpn.child (n : Arpn) (i : Nat) : Option Arpn :=
  n.sub.getD i none

/-- `arp_root`: the zero-initialized global root node. -/
def arp_root0 : Arpn :=
  .node ⟨0, 0, false, false, 0, 0, etherZero, 0⟩ (List.replicate 16 none)

/-- Fuel sufficient to reach a `/32` node from the root (8 levels). -/
def arpFuel : Nat := 9

/-- `arp_insert`: descend (creating missing nodes) along the 4-bit-per-
level path for `addr` down to the `/32` node, and return the updated
tree together with the scalar record of the `/32` node reached.  A
missing node is created zero-filled except for its address, prefix
length and `first = last = when`.  At a `/32` node the C asserts
`n->addr == addr` (`ft_assert`, aborting the process on failure); the
model returns `none` for that abort.  `none` is also returned on fuel
exhaustion, which cannot happen from the root with fuel 9. -/
def arp_insert : Nat → Arpn → Nat → Nat → Option (Arpn × ArpRec)
  | 0, _, _, _ => none
  | fuel + 1, .node v sub, addr, when =>
    if v.plen = 32 then
      if v.addr = addr then some (.node v sub, v) else none
    else
      let splen := v.plen + 4
      let i := (addr >>> (32 - splen)) % 16
      let sn := match sub.getD i none with
        | some sn => sn
        | none =>
          .node ⟨v.addr ||| (i <<< (32 - splen)), splen, false, false,
            when, when, etherZero, 0⟩ (List.replicate 16 none)
      match arp_insert fuel sn addr when with
      | none => none
      | some (sn', r) => some (.node v (sub.set i (some sn')), r)

/-- Observer: the record of the `/32` node at the nibble path of `addr`,
if the whole path exists.  This follows exactly the child-selection
arithmetic of `arp_insert`; it is the functional stand-in for the node
pointer the C keeps after an insertion. -/
def arp_find : Nat → Arpn → Nat → Option ArpRec
  | 0, _, _ => none
  | fuel + 1, .node v sub, addr =>
    if v.plen = 32 then some v
    else
      match sub.getD ((addr >>> (32 - (v.plen + 4))) % 16) none with
      | some c => arp_find fuel c addr
      | none => none

/-- Rewrite the record of the `/32` node at the nibble path of `addr`
(no-op if the path does not exist).  This renders the C's in-place field
assignments through the node pointer returned by `arp_insert`. -/
def arp_update : Nat → Arpn → Nat → (ArpRec → ArpRec) → Arpn
  | 0, n, _, _ => n
  | fuel + 1, .node v sub, addr, f =>
    if v.plen = 32 then .node (f v) sub
    else
      let i := (addr >>> (32 - (v.plen + 4))) % 16
      match sub.getD i none with
      | some c => .node v (sub.set i (some (arp_update fuel c addr f)))
      | none => .node v sub

/-- `arp_register`: insert/update the `/32` record for `ip`.  The C
copies the observed link-layer address over the stored one whenever they
differ (logging a migration if the old one was non-zero), so the stored
address always ends up equal to `ether`; `nreq` is reset to 0
unconditionally.  `none` models the `ft_assert` abort inside
`arp_insert`. -/
def arp_register (t : Arpn) (ip : Nat) (ether : EtherAddr) (when : Nat) :
    Option Arpn :=
  match arp_insert arpFuel t ip when with
  | none => none
  | some (t1, _) =>
    some (arp_update arpFuel t1 ip (fun r => { r with ether := ether, nreq := 0 }))

/-- `arp_lookup`: exact-depth descent through the eight nibbles of the
address (written in the C as `o[k] / 16` and `o[k] % 16` on the four
octets); returns the stored link-layer address if the full path exists,
else `none` (the C's `-1`). -/
def arp_lookup (t : Arpn) (ip : Nat) : Option EtherAddr :=
  let o0 := (ip >>> 24) % 256
  let o1 := (ip >>> 16) % 256
  let o2 := (ip >>> 8) % 256
  let o3 := ip % 256
  (t.child (o0 / 16)).bind fun n1 =>
  (n1.child (o0 % 16)).bind fun n2 =>
  (n2.child (o1 / 16)).bind fun n3 =>
  (n3.child (o1 % 16)).bind fun n4 =>
  (n4.child (o2 / 16)).bind fun n5 =>
  (n5.child (o2 % 16)).bind fun n6 =>
  (n6.child (o3 / 16)).bind fun n7 =>
  (n7.child (o3 % 16)).map fun n8 => n8.val.ether

/-- `arp_reserve`: insert/create the `/32` record (with timestamp 0) and
mark it reserved. -/
def arp_reserve (t : Arpn) (ip : Nat) : Option Arpn :=
  match arp_insert arpFuel t ip 0 with
  | none => none
  | some (t1, _) =>
    some (arp_update arpFuel t1 ip (fun r => { r with reserved := true }))

/-! ### Packet analyzer -/

/-- `arp_type_ether` (modelled from the spec and the standard ARP
hardware-type registry; the numeric constant lives in the `ft/arp.h`
header, which is not part of the sources at hand). -/
def arp_type_ether : Nat := 1

/-- `arp_type_ip4` (the Ethertype of IPv4; same provenance as
`arp_type_ether`). -/
def arp_type_ip4 : Nat := 0x0800

/-- `arp_oper_who_has` (ARP request opcode; same provenance). -/
def arp_oper_who_has : Nat := 1

/-- `arp_oper_is_at` (ARP reply opcode; same provenance). -/
def arp_oper_is_at : Nat := 2

/-- `arp_pkt`: the fixed ARP packet layout read by the analyzer.  The
four protocol addresses are carried as 32-bit numbers (the value the C
reads with `be32toh(ap->spa.q)`); the octets `o[k]` of an address are its
big-endian bytes, i.e. `o`&#8320;` = (a >>> 24) % 256` and so on. -/
structure ArpPkt where
  htype : Nat
  ptype : Nat
  hlen : Nat
  plen : Nat
  oper : Nat
  sha : EtherAddr
  spa : Nat
  tha : EtherAddr
  tpa : Nat
deriving DecidableEq, Repr

/-- `sizeof(arp_pkt)`.  Modelled from the spec ("payload must be at
least as long as the fixed resolution-packet header"): the fields above
occupy 2+2+1+1+2+6+4+6+4 = 28 bytes; `ft/arp.h` itself is not among the
sources at hand. -/
def arp_pkt_size : Nat := 28

/-- Wrap to 64 bits. -/
def u64 (x : Nat) : Nat := x % u64mod

/-- Unsigned 64-bit subtraction `a - b` with wrap-around, as the C's
`when - an->last` computes it. -/
def u64sub (a b : Nat) : Nat := (u64 a + (u64mod - u64 b)) % u64mod

/-- The millisecond timestamp `when` computed from a packet's capture
time: `ts.tv_sec * 1000 + ts.tv_usec / 1000` in `uint64_t`. -/
def pktWhen (sec usec : Nat) : Nat := u64 (sec * 1000 + usec / 1000)

/-- Observable effects of analyzing one packet: `registered ip` for each
call of `arp_register`, `replySent tpa` for each reply handed to the
transmission collaborator by `arp_reply`. -/
inductive ArpEvent : Type where
  | registered : Nat → ArpEvent
  | replySent : Nat → ArpEvent
deriving DecidableEq, Repr

/-- The destination-scope test `dst_set && !ip4s_lookup(dst_set, be32toh(ap->tpa.q))`
from `arp.c`: with no scope set the test is false; with a scope set it is
true exactly when the target address is outside the scope. -/
def scopeExcludes (scope : Option (Nat → Bool)) (a : Nat) : Bool :=
  match scope with
  | some inScope => !inScope a
  | none => false

/-- `packet_analyze_arp`.  Returns `some (ret, tree, events)` where
`ret` is the C return value (`0` or `-1`), or `none` for the `ft_assert`
abort inside `arp_insert` (unreachable on well-formed trees).  Faithful
to the C: a short packet returns `-1`; mismatched header fields or an
unknown opcode return `0` with no effect; a who-has request is dropped
when a scope set (`dst_set`) is present and does not contain the target;
otherwise the sender is registered and the target record is driven
through the claim state machine (reserved / claimed / new-or-stale /
claim-threshold / count branches, thresholds 3, 3000 ms, 30000 ms); an
is-at reply registers both sender and target.  The reply transmission
collaborator (`arp_reply` / `ethernet_reply`) is modelled as always
succeeding and recorded as a `replySent` event. -/
def packet_analyze_arp (scope : Option (Nat → Bool)) (t : Arpn)
    (pkt : ArpPkt) (len sec usec : Nat) :
    Option (Int × Arpn × List ArpEvent) :=
  if len < arp_pkt_size then some (-1, t, [])
  else if ¬(pkt.htype = arp_type_ether ∧ pkt.hlen = 6 ∧
      pkt.ptype = arp_type_ip4 ∧ pkt.plen = 4) then some (0, t, [])
  else if ¬(pkt.oper = arp_oper_who_has ∨ pkt.oper = arp_oper_is_at) then
    some (0, t, [])
  else
    let when := pktWhen sec usec
    if pkt.oper = arp_oper_who_has then
      if scopeExcludes scope pkt.tpa then some (0, t, [])
      else
        match arp_register t pkt.spa pkt.sha when with
        | none => none
        | some t1 =>
          match arp_insert arpFuel t1 pkt.tpa when with
          | none => none
          | some (t2, an) =>
            if an.reserved then
              some (0, arp_update arpFuel t2 pkt.tpa
                (fun r => { r with nreq := 0 }),
                [.registered pkt.spa])
            else if an.claimed then
              some (0, arp_update arpFuel t2 pkt.tpa
                (fun r => { r with nreq := 0, last := when }),
                [.registered pkt.spa, .replySent pkt.tpa])
            else if an.nreq = 0 ∨ u64sub when an.last ≥ 30000 then
              some (0, arp_update arpFuel t2 pkt.tpa
                (fun r => { r with nreq := 1, first := when, last := when }),
                [.registered pkt.spa])
            else if an.nreq ≥ 3 ∧ u64sub when an.first ≥ 3000 then
              some (0, arp_update arpFuel t2 pkt.tpa
                (fun r => { r with claimed := true, nreq := 0, last := when }),
                [.registered pkt.spa, .replySent pkt.tpa])
            else
              some (0, arp_update arpFuel t2 pkt.tpa
                (fun r => { r with nreq := (r.nreq + 1) % u32mod, last := when }),
                [.registered pkt.spa])
    else
      match arp_register t pkt.spa pkt.sha when with
      | none => none
      | some t1 =>
        match arp_register t1 pkt.tpa pkt.tha when with
        | none => none
        | some t2 =>
          some (0, t2, [.registered pkt.spa, .registered pkt.tpa])

/-- One operation applied to the tracker: a direct `arp_register` call,
a direct `arp_reserve` call, or a captured packet run through
`packet_analyze_arp`. -/
inductive TrackerOp : Type where
  | register : Nat → EtherAddr → Nat → TrackerOp
  | reserve : Nat → TrackerOp
  | packet : ArpPkt → Nat → Nat → Nat → TrackerOp
deriving Repr

/-- Apply one operation, returning the new tree and the events it
produced (`none` = `ft_assert` abort). -/
def trackerStep (scope : Option (Nat → Bool)) (t : Arpn) :
    TrackerOp → Option (Arpn × List ArpEvent)
  | .register ip mac when =>
    (arp_register t ip mac when).map (fun t' => (t', [.registered ip]))
  | .reserve ip => (arp_reserve t ip).map (fun t' => (t', []))
  | .packet pkt len sec usec =>
    (packet_analyze_arp scope t pkt len sec usec).map (fun x => (x.2.1, x.2.2))

/-- Apply a list of operations from a given tree, accumulating events. -/
def trackerRun (scope : Option (Nat → Bool)) :
    Arpn → List TrackerOp → Option (Arpn × List ArpEvent)
  | t, [] => some (t, [])
  | t, op :: ops =>
    match trackerStep scope t op with
    | none => none
    | some (t1, evs1) =>
      match trackerRun scope t1 ops with
      | none => none
      | some (t2, evs2) => some (t2, evs1 ++ evs2)

/-- Observer: the claimed flag of the `/32` record for `ip`. -/
def claimedAt (t : Arpn) (ip : Nat) : Option Bool :=
  (arp_find arpFuel t ip).map (fun r => r.claimed)

/-- Observer: the reserved flag of the `/32` record for `ip`. -/
def reservedAt (t : Arpn) (ip : Nat) : Option Bool :=
  (arp_find arpFuel t ip).map (fun r => r.reserved)

/-- Observer: the pending-request count of the `/32` record for `ip`. -/
def nreqAt (t : Arpn) (ip : Nat) : Option Nat :=
  (arp_find arpFuel t ip).map (fun r => r.nreq)

/-- Observer: the first-seen timestamp of the `/32` record for `ip`. -/
def firstAt (t : Arpn) (ip : Nat) : Option Nat :=
  (arp_find arpFuel t ip).map (fun r => r.first)

/-- Observer: the last-seen timestamp of the `/32` record for `ip`. -/
def lastAt (t : Arpn) (ip : Nat) : Option Nat :=
  (arp_find arpFuel t ip).map (fun r => r.last)

/-- Observer: the stored link-layer address of the `/32` record. -/
def etherAt (t : Arpn) (ip : Nat) : Option EtherAddr :=
  (arp_find arpFuel t ip).map (fun r => r.ether)

/-- A well-formed who-has request for target `tpa` from sender
`(sha, spa)`. -/
def whoHasPkt (spa tpa : Nat) (sha : EtherAddr) : ArpPkt :=
  ⟨arp_type_ether, arp_type_ip4, 6, 4, arp_oper_who_has, sha, spa, etherZero, tpa⟩

/-- The number of replies among a list of events. -/
def countReplies (evs : List ArpEvent) : Nat :=
  (evs.filter (fun e => match e with
    | .replySent _ => true
    | .registered _ => false)).length

/-! ### Analyzer: concrete scenario evaluations -/

/-- Concrete scenario target address 10.0.0.9. -/
def scenTarget : Nat := 0x0a000009

/-- Concrete scenario sender address 10.0.0.1. -/
def scenSender : Nat := 0x0a000001

/-- Concrete scenario sender link-layer address. -/
def scenMac : EtherAddr := ⟨0x52, 0x54, 0, 1, 2, 3⟩

/-- A well-formed in-scope who-has request for the scenario target,
captured at the given timestamp. -/
def scenReq (sec usec : Nat) : TrackerOp :=
  .packet (whoHasPkt scenSender scenTarget scenMac) arp_pkt_size sec usec

/-- C3 (counterexample): with the default thresholds, three well-formed
who-has requests for the same fresh target at t = 0, 1000, 3000 ms leave
the record *unclaimed* with `nreq = 3` and produce *no* reply: the code
tests `nreq >= 3` before counting the current request, so the count
reaches 3 only as the third request is processed, after the test.  The
claim asserts `claimed = true` at the third request and exactly one
reply across the three. -/
theorem c3_third_request_no_claim_no_reply :
    (trackerRun none arp_root0 [scenReq 0 0, scenReq 1 0, scenReq 3 0]).map
      (fun x => (claimedAt x.1 scenTarget, nreqAt x.1 scenTarget,
        countReplies x.2)) = some (some false, some 3, 0) := by
  decide

/-- C3 (amended): the three requests at t = 0, 1000, 3000 ms leave the
record unclaimed with `nreq = 3` and no reply sent; the *fourth* request
at t = 3500 ms (now `nreq = 3 ≥ 3` and window `3500 - 0 ≥ 3000`) sets
`claimed = true`, resets `nreq`, and emits the single claim reply of the
whole scenario. -/
theorem c3_amended_fourth_request_claims :
    (trackerRun none arp_root0 [scenReq 0 0, scenReq 1 0, scenReq 3 0]).map
      (fun x => (claimedAt x.1 scenTarget, nreqAt x.1 scenTarget,
        countReplies x.2)) = some (some false, some 3, 0) ∧
    (trackerRun none arp_root0
        [scenReq 0 0, scenReq 1 0, scenReq 3 0, scenReq 3 500000]).map
      (fun x => (claimedAt x.1 scenTarget, nreqAt x.1 scenTarget,
        lastAt x.1 scenTarget, countReplies x.2)) =
      some (some true, some 0, some 3500, 1) := by
  constructor
  · decide
  · decide

/-- C4 (counterexample): a packet shorter than the fixed ARP header does
*not* yield a successful result: `packet_analyze_arp` returns `-1` for
it (tracker state is still unchanged and no event is emitted).  The
field-mismatch and unknown-opcode paths do return 0. -/
theorem c4_short_packet_returns_error :
    (packet_analyze_arp none arp_root0 (whoHasPkt scenSender scenTarget scenMac)
      27 0 0).map (fun x => (x.1, x.2.2)) = some (-1, []) ∧ (-1 : Int) ≠ 0 := by
  decide

/-- C4 (amended): for every packet failing validation the tracker state
is unchanged and no reply or registration happens; the return value is
`0` (success) for mismatched hardware/protocol type or length fields and
for unknown operations, but `-1` (an error) for packets shorter than the
fixed ARP header. -/
theorem c4_amended_validation_failures (scope : Option (Nat → Bool))
    (t : Arpn) (pkt : ArpPkt) (len sec usec : Nat)
    (hbad : len < arp_pkt_size ∨
      ¬(pkt.htype = arp_type_ether ∧ pkt.hlen = 6 ∧
        pkt.ptype = arp_type_ip4 ∧ pkt.plen = 4) ∨
      ¬(pkt.oper = arp_oper_who_has ∨ pkt.oper = arp_oper_is_at)) :
    (len < arp_pkt_size →
      packet_analyze_arp scope t pkt len sec usec = some (-1, t, [])) ∧
    (arp_pkt_size ≤ len →
      packet_analyze_arp scope t pkt len sec usec = some (0, t, [])) := by
  constructor
  · intro hlt
    unfold packet_analyze_arp
    rw [if_pos hlt]
  · intro hge
    have hnlt : ¬ len < arp_pkt_size := by omega
    unfold packet_analyze_arp
    rcases hbad with h | h | h
    · exact absurd h hnlt
    · rw [if_neg hnlt, if_pos h]
    · rw [if_neg hnlt]
      simp [h]

/-- Witness for `c4_amended_validation_failures` at a concrete bad
packet (unknown operation code 7, length 28). -/
theorem c4_amended_validation_failures_witness :
    (28 < arp_pkt_size →
      packet_analyze_arp none arp_root0
        ⟨arp_type_ether, arp_type_ip4, 6, 4, 7, scenMac, scenSender, etherZero,
          scenTarget⟩ 28 0 0 = some (-1, arp_root0, [])) ∧
    (arp_pkt_size ≤ 28 →
      packet_analyze_arp none arp_root0
        ⟨arp_type_ether, arp_type_ip4, 6, 4, 7, scenMac, scenSender, etherZero,
          scenTarget⟩ 28 0 0 = some (0, arp_root0, [])) :=
  c4_amended_validation_failures none arp_root0 _ 28 0 0
    (Or.inr (Or.inr (by decide)))

/-! ### Tracker: nibble-path arithmetic -/

/-- Shifting left distributes over bitwise or. -/
theorem shiftLeft_lor_distrib (x y k : Nat) :
    (x <<< k) ||| (y <<< k) = (x ||| y) <<< k := by
  apply Nat.eq_of_testBit_eq
  intro i
  simp only [Nat.testBit_lor, Nat.testBit_shiftLeft]
  cases Nat.decLt i k with
  | isTrue h => simp [Nat.not_le_of_lt h]
  | isFalse h => simp [Nat.le_of_not_lt h]

/-- Bitwise or of a left shift with a value below the shifted-in zeros
is addition. -/
theorem shiftLeft_lor_low (x y k : Nat) (hy : y < 2 ^ k) :
    (x <<< k) ||| y = x <<< k + y := by
  apply Nat.eq_of_testBit_eq
  intro i
  rw [Nat.testBit_lor]
  rcases Nat.lt_or_ge i k with hik | hik
  · have hlow : (x <<< k + y) % 2 ^ k = y := by
      rw [Nat.shiftLeft_eq, Nat.add_comm, Nat.add_mul_mod_self_right]
      exact Nat.mod_eq_of_lt hy
    have h1 : (x <<< k + y).testBit i =
        ((x <<< k + y) % 2 ^ k).testBit i := by
      rw [Nat.testBit_mod_two_pow]
      simp [hik]
    rw [h1, hlow, Nat.testBit_shiftLeft]
    simp [Nat.not_le_of_lt hik]
  · have hhigh : (x <<< k + y) >>> k = x := by
      rw [Nat.shiftLeft_eq, Nat.shiftRight_eq_div_pow, Nat.mul_comm,
        Nat.mul_add_div (Nat.pos_pow_of_pos k (by omega)),
        Nat.div_eq_of_lt hy, Nat.add_zero]
    have h2 : (x <<< k + y).testBit i = x.testBit (i - k) := by
      have hki : k + (i - k) = i := by omega
      conv_lhs => rw [← hki]
      rw [← Nat.testBit_shiftRight, hhigh]
    rw [h2, Nat.testBit_shiftLeft]
    have : y.testBit i = false :=
      Nat.testBit_lt_two_pow (lt_of_lt_of_le hy (Nat.pow_le_pow_right (by omega) hik))
    simp [hik, this]

/-- The leading `p` bits of `b`, aligned: the subnet address at prefix
length `p` of the path to `b`. -/
def topBits (b p : Nat) : Nat := (b >>> (32 - p)) <<< (32 - p)

theorem topBits_le (b p : Nat) : topBits b p ≤ b := by
  rw [topBits, Nat.shiftRight_eq_div_pow, Nat.shiftLeft_eq]
  exact Nat.div_mul_le_self b (2 ^ (32 - p))

theorem topBits_zero (b : Nat) (hb : b < 2 ^ 32) : topBits b 0 = 0 := by
  have h : b >>> 32 = 0 := by
    rw [Nat.shiftRight_eq_div_pow]
    exact Nat.div_eq_of_lt hb
  rw [topBits]
  simp [h]

theorem topBits_32 (b : Nat) : topBits b 32 = b := by
  simp [topBits]

/-- Extending an aligned prefix by the next nibble of `b` yields the
next aligned prefix: the child-address computation
`n->addr | (sub << (32 - splen))` of `arp_insert` stays on the path
to `b`. -/
theorem topBits_step (b p : Nat) (hp : p + 4 ≤ 32) :
    topBits b p ||| (((b >>> (32 - (p + 4))) % 16) <<< (32 - (p + 4))) =
      topBits b (p + 4) := by
  have h32p : 32 - p = (32 - (p + 4)) + 4 := by omega
  have h1 : topBits b p =
      ((b >>> (32 - (p + 4)) >>> 4) <<< 4) <<< (32 - (p + 4)) := by
    rw [topBits, h32p, Nat.shiftRight_add, Nat.add_comm (32 - (p + 4)) 4,
      Nat.shiftLeft_add]
  rw [h1, topBits, shiftLeft_lor_distrib,
    shiftLeft_lor_low _ _ 4 (by omega)]
  congr 1
  rw [Nat.shiftRight_eq_div_pow, Nat.shiftLeft_eq]
  norm_num
  omega

/-- Two addresses with the same aligned 32-bit prefix are equal. -/
theorem topBits_inj (a b : Nat)
    (h : topBits a 32 = topBits b 32) : a = b := by
  rwa [topBits_32 a, topBits_32 b] at h

/-! ### Tracker: well-formedness -/

/-- `getD` hitting `some` implies the index is in range. -/
theorem getD_some_lt {α : Type} (l : List (Option α)) (i : Nat) (c : α)
    (h : l.getD i none = some c) : i < l.length := by
  induction l generalizing i with
  | nil => simp [List.getD] at h
  | cons x xs ih =>
    cases i with
    | zero => simp
    | succ j =>
      rw [List.getD_cons_succ] at h
      simpa using ih j h

/-- Structural well-formedness of a tracker tree: 16 child slots, prefix
length a multiple of 4 and at most 32, bounded address, a `/32` node has
no children (its union storage holds the leaf payload), and the child at
slot `i` sits one nibble deeper at the address
`n->addr | (i << (32 - splen))` that `arp_insert` assigns. -/
inductive ArpWF : Arpn → Prop where
  | mk : ∀ v sub,
      sub.length = 16 →
      v.plen ≤ 32 →
      4 ∣ v.plen →
      v.addr < 2 ^ 32 →
      (v.plen = 32 → ∀ o ∈ sub, o = none) →
      (∀ i c, sub.getD i none = some c →
        c.val.plen = v.plen + 4 ∧
        c.val.addr = v.addr ||| (i <<< (32 - (v.plen + 4)))) →
      (∀ i c, sub.getD i none = some c → ArpWF c) →
      ArpWF (.node v sub)

theorem arp_root0_WF : ArpWF arp_root0 := by
  refine ArpWF.mk _ _ (by simp) (by simp [arp_root0]) (by simp [arp_root0])
    (by norm_num [arp_root0]) ?_ ?_ ?_
  · intro h
    simp [arp_root0] at h
  all_goals
    intro i c hc
    rw [getD_replicate_none] at hc
    exact absurd hc (by simp)

/-- The record of the `/32` node created by `arp_insert`. -/
def arpFreshRec (a when : Nat) : ArpRec :=
  ⟨a, 32, false, false, when, when, etherZero, 0⟩

/-- A node freshly created by `arp_insert` is well-formed. -/
theorem arp_fresh_WF (a splen when : Nat) (h1 : splen ≤ 32) (h2 : 4 ∣ splen)
    (h3 : a < 2 ^ 32) :
    ArpWF (.node ⟨a, splen, false, false, when, when, etherZero, 0⟩
      (List.replicate 16 none)) := by
  refine ArpWF.mk _ _ (by simp) h1 h2 h3 (fun _ o ho => List.eq_of_mem_replicate ho)
    ?_ ?_
  all_goals
    intro i c hc
    rw [getD_replicate_none] at hc
    exact absurd hc (by simp)

/-- One-step unfolding of `arp_find`. -/
theorem arp_find_succ (g : Nat) (v : ArpRec) (sub : List (Option Arpn))
    (b : Nat) :
    arp_find (g + 1) (.node v sub) b =
      if v.plen = 32 then some v
      else
        match sub.getD ((b >>> (32 - (v.plen + 4))) % 16) none with
        | some c => arp_find g c b
        | none => none := rfl

/-- `arp_find` on a node without children and prefix length below 32
always fails. -/
theorem arp_find_no_children (g : Nat) (v : ArpRec) (hv : v.plen ≠ 32)
    (b : Nat) :
    arp_find g (.node v (List.replicate 16 none)) b = none := by
  cases g with
  | zero => rfl
  | succ g =>
    rw [arp_find_succ, if_neg hv, getD_replicate_none]

/-- One-step unfolding of `arp_insert`. -/
theorem arp_insert_succ (fuel : Nat) (v : ArpRec) (sub : List (Option Arpn))
    (a when : Nat) :
    arp_insert (fuel + 1) (.node v sub) a when =
      (if v.plen = 32 then
        if v.addr = a then some (.node v sub, v) else none
      else
        let splen := v.plen + 4
        let i := (a >>> (32 - splen)) % 16
        let sn := match sub.getD i none with
          | some sn => sn
          | none =>
            .node ⟨v.addr ||| (i <<< (32 - splen)), splen, false, false,
              when, when, etherZero, 0⟩ (List.replicate 16 none)
        match arp_insert fuel sn a when with
        | none => none
        | some (sn', r) => some (.node v (sub.set i (some sn')), r)) := rfl

/-- One-step unfolding of `arp_update`. -/
theorem arp_update_succ (fuel : Nat) (v : ArpRec) (sub : List (Option Arpn))
    (a : Nat) (f : ArpRec → ArpRec) :
    arp_update (fuel + 1) (.node v sub) a f =
      (if v.plen = 32 then .node (f v) sub
      else
        let i := (a >>> (32 - (v.plen + 4))) % 16
        match sub.getD i none with
        | some c => .node v (sub.set i (some (arp_update fuel c a f)))
        | none => .node v sub) := rfl

/-- Full specification of `arp_insert` on well-formed trees: with enough
fuel it succeeds (in particular the `/32` consistency assertion never
fires), preserves well-formedness, leaves the node's own scalar fields
untouched, returns the record at the `/32` path of `a` — the
pre-existing record unchanged, or a fresh zero record stamped with
`when` — and changes the record of no other address. -/
theorem arp_insert_spec :
    ∀ (fuel : Nat) (n : Arpn) (a when : Nat),
    ArpWF n → a < 2 ^ 32 → n.val.addr = topBits a n.val.plen →
    (32 - n.val.plen) / 4 < fuel →
    ∃ n' r, arp_insert fuel n a when = some (n', r) ∧
      ArpWF n' ∧ n'.val = n.val ∧ r.plen = 32 ∧ r.addr = a ∧
      (∀ g, (32 - n.val.plen) / 4 < g → arp_find g n' a = some r) ∧
      (∀ b g, b ≠ a → topBits b n.val.plen = n.val.addr →
        arp_find g n' b = arp_find g n b) ∧
      (∀ g, (32 - n.val.plen) / 4 < g →
        arp_find g n a = some r ∨
          (arp_find g n a = none ∧ r = arpFreshRec a when)) := by
  intro fuel
  induction fuel with
  | zero =>
    intro n a when _ _ _ hfu
    exact absurd hfu (by omega)
  | succ fuel ih =>
    intro n a when hwf hb hpre hfu
    cases n with
    | node v sub =>
      simp only [Arpn.val] at hpre hfu ⊢
      cases hwf with
      | mk _ _ hlen hple hdvd haddr h32none hchform hchwf =>
        by_cases h32 : v.plen = 32
        · -- at the /32 node: the assertion holds because the path
          -- arithmetic forces v.addr = a
          have ha : v.addr = a := by rw [hpre, h32]; exact topBits_32 a
          refine ⟨.node v sub, v, ?_, ?_, rfl, h32, ha, ?_, ?_, ?_⟩
          · rw [arp_insert_succ, if_pos h32, if_pos ha]
          · exact ArpWF.mk v sub hlen hple hdvd haddr h32none hchform hchwf
          · intro g hg
            cases g with
            | zero => exact absurd hg (by omega)
            | succ g => rw [arp_find_succ, if_pos h32]
          · intro b g _ _
            rfl
          · intro g hg
            cases g with
            | zero => exact absurd hg (by omega)
            | succ g =>
              left
              rw [arp_find_succ, if_pos h32]
        · -- internal node: descend
          have hsp : v.plen + 4 ≤ 32 := by omega
          have hilt : (a >>> (32 - (v.plen + 4))) % 16 < 16 :=
            Nat.mod_lt _ (by omega)
          have hstepa : v.addr |||
              (((a >>> (32 - (v.plen + 4))) % 16) <<< (32 - (v.plen + 4))) =
              topBits a (v.plen + 4) := by
            rw [hpre]
            exact topBits_step a v.plen hsp
          cases hslot : sub.getD ((a >>> (32 - (v.plen + 4))) % 16) none with
          | some sn =>
            have hform := hchform _ sn hslot
            have hcwf := hchwf _ sn hslot
            have hcpre : sn.val.addr = topBits a sn.val.plen := by
              rw [hform.2, hform.1]
              exact hstepa
            obtain ⟨sn', r, hieq, hiwf, hival, hirplen, hiraddr, hifind,
                hiframe, hipres⟩ :=
              ih sn a when hcwf hb hcpre (by rw [hform.1]; omega)
            have heq : arp_insert (fuel + 1) (.node v sub) a when =
                some (.node v
                  (sub.set ((a >>> (32 - (v.plen + 4))) % 16) (some sn')), r) := by
              rw [arp_insert_succ, if_neg h32]
              simp only [hslot, hieq]
            refine ⟨_, r, heq, ?_, rfl, hirplen, hiraddr, ?_, ?_, ?_⟩
            · refine ArpWF.mk v _ (by rw [List.length_set]; exact hlen)
                hple hdvd haddr (fun h => absurd h h32) ?_ ?_
              · intro j c hc
                by_cases hij : (a >>> (32 - (v.plen + 4))) % 16 = j
                · subst hij
                  rw [getD_set_self _ _ _ _ (by rw [hlen]; exact hilt)] at hc
                  cases hc
                  rw [hival]
                  exact hform
                · rw [getD_set_ne _ _ _ _ _ hij] at hc
                  exact hchform j c hc
              · intro j c hc
                by_cases hij : (a >>> (32 - (v.plen + 4))) % 16 = j
                · subst hij
                  rw [getD_set_self _ _ _ _ (by rw [hlen]; exact hilt)] at hc
                  cases hc
                  exact hiwf
                · rw [getD_set_ne _ _ _ _ _ hij] at hc
                  exact hchwf j c hc
            · intro g hg
              cases g with
              | zero => exact absurd hg (by omega)
              | succ g =>
                rw [arp_find_succ, if_neg h32,
                  getD_set_self _ _ _ _ (by rw [hlen]; exact hilt)]
                exact hifind g (by rw [hform.1]; omega)
            · intro b g hne hbpre
              cases g with
              | zero => rfl
              | succ g =>
                rw [arp_find_succ, arp_find_succ, if_neg h32, if_neg h32]
                by_cases hij :
                    (a >>> (32 - (v.plen + 4))) % 16 =
                      (b >>> (32 - (v.plen + 4))) % 16
                · rw [← hij,
                    getD_set_self _ _ _ _ (by rw [hlen]; exact hilt), hslot]
                  have hstepb : topBits b (v.plen + 4) = sn.val.addr := by
                    rw [hform.2, hij, ← hbpre]
                    exact (topBits_step b v.plen hsp).symm
                  exact hiframe b g hne (by rw [hform.1]; exact hstepb)
                · rw [getD_set_ne _ _ _ _ _ hij]
            · intro g hg
              cases g with
              | zero => exact absurd hg (by omega)
              | succ g =>
                rw [arp_find_succ, if_neg h32, hslot]
                exact hipres g (by rw [hform.1]; omega)
          | none =>
            -- create the missing child, a fresh leaf on the path of a
            have hfwfa : (v.addr |||
                (((a >>> (32 - (v.plen + 4))) % 16) <<< (32 - (v.plen + 4))))
                < 2 ^ 32 := by
              rw [hstepa]
              exact lt_of_le_of_lt (topBits_le a (v.plen + 4)) hb
            have hcwf := arp_fresh_WF _ (v.plen + 4) when hsp (by omega) hfwfa
            obtain ⟨sn', r, hieq, hiwf, hival, hirplen, hiraddr, hifind,
                hiframe, hipres⟩ :=
              ih (.node ⟨v.addr |||
                  (((a >>> (32 - (v.plen + 4))) % 16) <<< (32 - (v.plen + 4))),
                  v.plen + 4, false, false, when, when, etherZero, 0⟩
                  (List.replicate 16 none)) a when hcwf hb
                (by simp only [Arpn.val]; exact hstepa)
                (by show (32 - (v.plen + 4)) / 4 < fuel; omega)
            simp only [Arpn.val] at hifind hiframe hipres
            have heq : arp_insert (fuel + 1) (.node v sub) a when =
                some (.node v
                  (sub.set ((a >>> (32 - (v.plen + 4))) % 16) (some sn')), r) := by
              rw [arp_insert_succ, if_neg h32]
              simp only [hslot, hieq]
            refine ⟨_, r, heq, ?_, rfl, hirplen, hiraddr, ?_, ?_, ?_⟩
            · refine ArpWF.mk v _ (by rw [List.length_set]; exact hlen)
                hple hdvd haddr (fun h => absurd h h32) ?_ ?_
              · intro j c hc
                by_cases hij : (a >>> (32 - (v.plen + 4))) % 16 = j
                · subst hij
                  rw [getD_set_self _ _ _ _ (by rw [hlen]; exact hilt)] at hc
                  cases hc
                  rw [hival]
                  exact ⟨rfl, rfl⟩
                · rw [getD_set_ne _ _ _ _ _ hij] at hc
                  exact hchform j c hc
              · intro j c hc
                by_cases hij : (a >>> (32 - (v.plen + 4))) % 16 = j
                · subst hij
                  rw [getD_set_self _ _ _ _ (by rw [hlen]; exact hilt)] at hc
                  cases hc
                  exact hiwf
                · rw [getD_set_ne _ _ _ _ _ hij] at hc
                  exact hchwf j c hc
            · intro g hg
              cases g with
              | zero => exact absurd hg (by omega)
              | succ g =>
                rw [arp_find_succ, if_neg h32,
                  getD_set_self _ _ _ _ (by rw [hlen]; exact hilt)]
                exact hifind g (by omega)
            · intro b g hne hbpre
              cases g with
              | zero => rfl
              | succ g =>
                rw [arp_find_succ, arp_find_succ, if_neg h32, if_neg h32]
                by_cases hij :
                    (a >>> (32 - (v.plen + 4))) % 16 =
                      (b >>> (32 - (v.plen + 4))) % 16
                · rw [← hij,
                    getD_set_self _ _ _ _ (by rw [hlen]; exact hilt), hslot]
                  have hstepb : topBits b (v.plen + 4) =
                      v.addr ||| (((a >>> (32 - (v.plen + 4))) % 16) <<<
                        (32 - (v.plen + 4))) := by
                    rw [hij, ← hbpre]
                    exact (topBits_step b v.plen hsp).symm
                  show arp_find g sn' b = none
                  rw [hiframe b g hne hstepb]
                  by_cases h432 : v.plen + 4 = 32
                  · exfalso
                    apply hne
                    apply topBits_inj
                    rw [← h432, hstepb, hstepa]
                  · exact arp_find_no_children g _ (by simpa using h432) b
                · rw [getD_set_ne _ _ _ _ _ hij]
            · intro g hg
              cases g with
              | zero => exact absurd hg (by omega)
              | succ g =>
                rw [arp_find_succ, if_neg h32, hslot]
                right
                refine ⟨rfl, ?_⟩
                by_cases h432 : v.plen + 4 = 32
                · rcases hipres (0 + 1) (by omega) with h | h
                  · rw [arp_find_succ, if_pos (by simpa using h432)] at h
                    cases h
                    have haeq : v.addr ||| (((a >>> (32 - (v.plen + 4))) % 16) <<<
                        (32 - (v.plen + 4))) = a := by
                      rw [hstepa, h432]
                      exact topBits_32 a
                    rw [arpFreshRec, haeq, h432]
                  · rw [arp_find_succ, if_pos (by simpa using h432)] at h
                    exact absurd h.1 (by simp)
                · rcases hipres ((32 - (v.plen + 4)) / 4 + 1)
                      (by omega) with h | h
                  · rw [arp_find_no_children _ _ (by simpa using h432)] at h
                    exact absurd h (by simp)
                  · exact h.2

/-- Specification of `arp_update` on well-formed trees, for field
rewrites `f` that keep the address and prefix length: well-formedness is
preserved, the node's own scalar fields keep their address and prefix
length, the record at the path of `a` is mapped through `f`, and no
other path changes. -/
theorem arp_update_spec :
    ∀ (fuel : Nat) (n : Arpn) (a : Nat) (f : ArpRec → ArpRec),
    ArpWF n → a < 2 ^ 32 → n.val.addr = topBits a n.val.plen →
    (32 - n.val.plen) / 4 < fuel →
    (∀ r, (f r).addr = r.addr) → (∀ r, (f r).plen = r.plen) →
    ArpWF (arp_update fuel n a f) ∧
    (arp_update fuel n a f).val.plen = n.val.plen ∧
    (arp_update fuel n a f).val.addr = n.val.addr ∧
    (∀ g, arp_find g (arp_update fuel n a f) a = (arp_find g n a).map f) ∧
    (∀ b g, b ≠ a → topBits b n.val.plen = n.val.addr →
      arp_find g (arp_update fuel n a f) b = arp_find g n b) := by
  intro fuel
  induction fuel with
  | zero =>
    intro n a f _ _ _ hfu _ _
    exact absurd hfu (by omega)
  | succ fuel ih =>
    intro n a f hwf hb hpre hfu hfa hfp
    cases n with
    | node v sub =>
      simp only [Arpn.val] at hpre hfu ⊢
      cases hwf with
      | mk _ _ hlen hple hdvd haddr h32none hchform hchwf =>
        by_cases h32 : v.plen = 32
        · have ha : v.addr = a := by rw [hpre, h32]; exact topBits_32 a
          have hueq : arp_update (fuel + 1) (.node v sub) a f =
              .node (f v) sub := by
            rw [arp_update_succ, if_pos h32]
          rw [hueq]
          have hnone : ∀ i c, sub.getD i none = some c → False := by
            intro i c hc
            rw [getD_of_all_none sub (h32none h32) i] at hc
            exact absurd hc (by simp)
          refine ⟨?_, by simp [Arpn.val, hfp], by simp [Arpn.val, hfa], ?_, ?_⟩
          · refine ArpWF.mk (f v) sub hlen (by rw [hfp]; exact hple)
              (by rw [hfp]; exact hdvd) (by rw [hfa]; exact haddr)
              (fun _ => h32none h32) ?_ ?_
            all_goals
              intro i c hc
              exact absurd hc (fun hc => hnone i c hc)
          · intro g
            cases g with
            | zero => rfl
            | succ g =>
              rw [arp_find_succ, arp_find_succ, if_pos h32,
                if_pos (by rw [hfp]; exact h32)]
              rfl
          · intro b g hne hbpre
            exfalso
            apply hne
            apply topBits_inj
            rw [← h32, hbpre, hpre]
        · have hsp : v.plen + 4 ≤ 32 := by omega
          have hilt : (a >>> (32 - (v.plen + 4))) % 16 < 16 :=
            Nat.mod_lt _ (by omega)
          cases hslot : sub.getD ((a >>> (32 - (v.plen + 4))) % 16) none with
          | none =>
            have hueq : arp_update (fuel + 1) (.node v sub) a f =
                .node v sub := by
              rw [arp_update_succ, if_neg h32]
              simp only [hslot]
            rw [hueq]
            refine ⟨ArpWF.mk v sub hlen hple hdvd haddr h32none hchform hchwf,
              rfl, rfl, ?_, ?_⟩
            · intro g
              cases g with
              | zero => rfl
              | succ g =>
                rw [arp_find_succ, if_neg h32, hslot]
                rfl
            · intro b g _ _
              rfl
          | some c =>
            have hform := hchform _ c hslot
            have hcwf := hchwf _ c hslot
            have hstepa : v.addr |||
                (((a >>> (32 - (v.plen + 4))) % 16) <<< (32 - (v.plen + 4))) =
                topBits a (v.plen + 4) := by
              rw [hpre]
              exact topBits_step a v.plen hsp
            have hcpre : c.val.addr = topBits a c.val.plen := by
              rw [hform.2, hform.1]
              exact hstepa
            obtain ⟨cwf, cplen, caddr, cfind, cframe⟩ :=
              ih c a f hcwf hb hcpre (by rw [hform.1]; omega) hfa hfp
            have hueq : arp_update (fuel + 1) (.node v sub) a f =
                .node v (sub.set ((a >>> (32 - (v.plen + 4))) % 16)
                  (some (arp_update fuel c a f))) := by
              rw [arp_update_succ, if_neg h32]
              simp only [hslot]
            rw [hueq]
            refine ⟨?_, rfl, rfl, ?_, ?_⟩
            · refine ArpWF.mk v _ (by rw [List.length_set]; exact hlen)
                hple hdvd haddr (fun h => absurd h h32) ?_ ?_
              · intro j c' hc
                by_cases hij : (a >>> (32 - (v.plen + 4))) % 16 = j
                · subst hij
                  rw [getD_set_self _ _ _ _ (by rw [hlen]; exact hilt)] at hc
                  cases hc
                  exact ⟨cplen.trans hform.1, caddr.trans hform.2⟩
                · rw [getD_set_ne _ _ _ _ _ hij] at hc
                  exact hchform j c' hc
              · intro j c' hc
                by_cases hij : (a >>> (32 - (v.plen + 4))) % 16 = j
                · subst hij
                  rw [getD_set_self _ _ _ _ (by rw [hlen]; exact hilt)] at hc
                  cases hc
                  exact cwf
                · rw [getD_set_ne _ _ _ _ _ hij] at hc
                  exact hchwf j c' hc
            · intro g
              cases g with
              | zero => rfl
              | succ g =>
                rw [arp_find_succ, arp_find_succ, if_neg h32, if_neg h32,
                  getD_set_self _ _ _ _ (by rw [hlen]; exact hilt), hslot]
                exact cfind g
            · intro b g hne hbpre
              cases g with
              | zero => rfl
              | succ g =>
                rw [arp_find_succ, arp_find_succ, if_neg h32, if_neg h32]
                by_cases hij :
                    (a >>> (32 - (v.plen + 4))) % 16 =
                      (b >>> (32 - (v.plen + 4))) % 16
                · rw [← hij,
                    getD_set_self _ _ _ _ (by rw [hlen]; exact hilt), hslot]
                  have hstepb : topBits b (v.plen + 4) = c.val.addr := by
                    rw [hform.2, hij, ← hbpre]
                    exact (topBits_step b v.plen hsp).symm
                  exact cframe b g hne (by rw [hform.1]; exact hstepb)
                · rw [getD_set_ne _ _ _ _ _ hij]

/-- `child` on a literal node. -/
theorem Arpn.child_node (v : ArpRec) (sub : List (Option Arpn)) (i : Nat) :
    (Arpn.node v sub).child i = sub.getD i none := rfl

/-- The octet arithmetic of `arp_lookup` (`o[k] / 16`, `o[k] % 16` on
the four big-endian octets) selects exactly the eight nibbles that
`arp_insert` and `arp_find` use. -/
theorem octet_div (b s : Nat) :
    ((b >>> s) % 256) / 16 = (b >>> (s + 4)) % 16 := by
  have h : b >>> (s + 4) = (b >>> s) / 16 := by
    rw [Nat.shiftRight_add, Nat.shiftRight_eq_div_pow]
  omega

theorem octet_mod (b s : Nat) : ((b >>> s) % 256) % 16 = (b >>> s) % 16 := by
  omega

/-- On a well-formed tree rooted at prefix length 0, `arp_lookup`
returns exactly the stored link-layer address of the `/32` record on the
nibble path of `b` (and is absent precisely when that path is
incomplete). -/
theorem arp_lookup_eq_find (t : Arpn) (b : Nat) (hwf : ArpWF t)
    (hp : t.val.plen = 0) :
    arp_lookup t b = (arp_find arpFuel t b).map (fun r => r.ether) := by
  have o0d : ((b >>> 24) % 256) / 16 = (b >>> 28) % 16 := by
    have h : b >>> 28 = (b >>> 24) / 16 := by
      rw [show (28 : Nat) = 24 + 4 from rfl, Nat.shiftRight_add,
        Nat.shiftRight_eq_div_pow]
    omega
  have o0m : ((b >>> 24) % 256) % 16 = (b >>> 24) % 16 := by omega
  have o1d : ((b >>> 16) % 256) / 16 = (b >>> 20) % 16 := by
    have h : b >>> 20 = (b >>> 16) / 16 := by
      rw [show (20 : Nat) = 16 + 4 from rfl, Nat.shiftRight_add,
        Nat.shiftRight_eq_div_pow]
    omega
  have o1m : ((b >>> 16) % 256) % 16 = (b >>> 16) % 16 := by omega
  have o2d : ((b >>> 8) % 256) / 16 = (b >>> 12) % 16 := by
    have h : b >>> 12 = (b >>> 8) / 16 := by
      rw [show (12 : Nat) = 8 + 4 from rfl, Nat.shiftRight_add,
        Nat.shiftRight_eq_div_pow]
    omega
  have o2m : ((b >>> 8) % 256) % 16 = (b >>> 8) % 16 := by omega
  have o3d : (b % 256) / 16 = (b >>> 4) % 16 := by
    have h : b >>> 4 = b / 16 := by rw [Nat.shiftRight_eq_div_pow]
    omega
  have o3m : (b % 256) % 16 = b % 16 := by omega
  cases t with
  | node v sub =>
    simp only [Arpn.val] at hp
    cases hwf with
    | mk _ _ hlen hple hdvd haddr h32none hchform hchwf =>
      simp only [arp_lookup, Arpn.child_node, o0d, o0m, o1d, o1m, o2d, o2m,
        o3d, o3m]
      rw [show arpFuel = 9 from rfl]
      rw [arp_find_succ 8 v sub b, if_neg (by omega),
        show (b >>> (32 - (v.plen + 4))) % 16 = (b >>> 28) % 16 from by rw [hp]]
      cases h0 : sub.getD ((b >>> 28) % 16) none with
      | none => simp
      | some c1 =>
        have hf1 := hchform _ _ h0
        have hw1 := hchwf _ _ h0
        cases c1 with
        | node v1 sub1 =>
          simp only [Arpn.val] at hf1
          have hp1 : v1.plen = 4 := by rw [hf1.1, hp]
          cases hw1 with
          | mk _ _ hlen1 hple1 hdvd1 haddr1 h32none1 hchform1 hchwf1 =>
            simp only [Option.some_bind, Arpn.child_node]
            rw [arp_find_succ 7 v1 sub1 b, if_neg (by omega),
              show (b >>> (32 - (v1.plen + 4))) % 16 = (b >>> 24) % 16 from by rw [hp1]]
            cases h1 : sub1.getD ((b >>> 24) % 16) none with
            | none => simp
            | some c2 =>
              have hf2 := hchform1 _ _ h1
              have hw2 := hchwf1 _ _ h1
              cases c2 with
              | node v2 sub2 =>
                simp only [Arpn.val] at hf2
                have hp2 : v2.plen = 8 := by rw [hf2.1, hp1]
                cases hw2 with
                | mk _ _ hlen2 hple2 hdvd2 haddr2 h32none2 hchform2 hchwf2 =>
                  simp only [Option.some_bind, Arpn.child_node]
                  rw [arp_find_succ 6 v2 sub2 b, if_neg (by omega),
                    show (b >>> (32 - (v2.plen + 4))) % 16 = (b >>> 20) % 16 from by rw [hp2]]
                  cases h2 : sub2.getD ((b >>> 20) % 16) none with
                  | none => simp
                  | some c3 =>
                    have hf3 := hchform2 _ _ h2
                    have hw3 := hchwf2 _ _ h2
                    cases c3 with
                    | node v3 sub3 =>
                      simp only [Arpn.val] at hf3
                      have hp3 : v3.plen = 12 := by rw [hf3.1, hp2]
                      cases hw3 with
                      | mk _ _ hlen3 hple3 hdvd3 haddr3 h32none3 hchform3 hchwf3 =>
                        simp only [Option.some_bind, Arpn.child_node]
                        rw [arp_find_succ 5 v3 sub3 b, if_neg (by omega),
                          show (b >>> (32 - (v3.plen + 4))) % 16 = (b >>> 16) % 16 from by rw [hp3]]
                        cases h3 : sub3.getD ((b >>> 16) % 16) none with
                        | none => simp
                        | some c4 =>
                          have hf4 := hchform3 _ _ h3
                          have hw4 := hchwf3 _ _ h3
                          cases c4 with
                          | node v4 sub4 =>
                            simp only [Arpn.val] at hf4
                            have hp4 : v4.plen = 16 := by rw [hf4.1, hp3]
                            cases hw4 with
                            | mk _ _ hlen4 hple4 hdvd4 haddr4 h32none4 hchform4 hchwf4 =>
                              simp only [Option.some_bind, Arpn.child_node]
                              rw [arp_find_succ 4 v4 sub4 b, if_neg (by omega),
                                show (b >>> (32 - (v4.plen + 4))) % 16 = (b >>> 12) % 16 from by rw [hp4]]
                              cases h4 : sub4.getD ((b >>> 12) % 16) none with
                              | none => simp
                              | some c5 =>
                                have hf5 := hchform4 _ _ h4
                                have hw5 := hchwf4 _ _ h4
                                cases c5 with
                                | node v5 sub5 =>
                                  simp only [Arpn.val] at hf5
                                  have hp5 : v5.plen = 20 := by rw [hf5.1, hp4]
                                  cases hw5 with
                                  | mk _ _ hlen5 hple5 hdvd5 haddr5 h32none5 hchform5 hchwf5 =>
                                    simp only [Option.some_bind, Arpn.child_node]
                                    rw [arp_find_succ 3 v5 sub5 b, if_neg (by omega),
                                      show (b >>> (32 - (v5.plen + 4))) % 16 = (b >>> 8) % 16 from by rw [hp5]]
                                    cases h5 : sub5.getD ((b >>> 8) % 16) none with
                                    | none => simp
                                    | some c6 =>
                                      have hf6 := hchform5 _ _ h5
                                      have hw6 := hchwf5 _ _ h5
                                      cases c6 with
                                      | node v6 sub6 =>
                                        simp only [Arpn.val] at hf6
                                        have hp6 : v6.plen = 24 := by rw [hf6.1, hp5]
                                        cases hw6 with
                                        | mk _ _ hlen6 hple6 hdvd6 haddr6 h32none6 hchform6 hchwf6 =>
                                          simp only [Option.some_bind, Arpn.child_node]
                                          rw [arp_find_succ 2 v6 sub6 b, if_neg (by omega),
                                            show (b >>> (32 - (v6.plen + 4))) % 16 = (b >>> 4) % 16 from by rw [hp6]]
                                          cases h6 : sub6.getD ((b >>> 4) % 16) none with
                                          | none => simp
                                          | some c7 =>
                                            have hf7 := hchform6 _ _ h6
                                            have hw7 := hchwf6 _ _ h6
                                            cases c7 with
                                            | node v7 sub7 =>
                                              simp only [Arpn.val] at hf7
                                              have hp7 : v7.plen = 28 := by rw [hf7.1, hp6]
                                              cases hw7 with
                                              | mk _ _ hlen7 hple7 hdvd7 haddr7 h32none7 hchform7 hchwf7 =>
                                                simp only [Option.some_bind, Arpn.child_node]
                                                rw [arp_find_succ 1 v7 sub7 b, if_neg (by omega),
                                                  show (b >>> (32 - (v7.plen + 4))) % 16 = b % 16 from by
                                                    rw [hp7]; norm_num]
                                                cases h7 : sub7.getD (b % 16) none with
                                                | none => simp
                                                | some c8 =>
                                                  have hf8 := hchform7 _ _ h7
                                                  cases c8 with
                                                  | node v8 sub8 =>
                                                    simp only [Arpn.val] at hf8
                                                    have hp8 : v8.plen = 32 := by rw [hf8.1, hp7]
                                                    simp only [Option.map_some']
                                                    rw [arp_find_succ 0 v8 sub8 b, if_pos hp8]
                                                    simp [Arpn.val]

/-! ### Tracker: root-level composition lemmas -/

/-- A tree usable as the tracker root: well-formed, prefix length 0,
address 0 (the zeroed global `arp_root`, preserved by every
operation). -/
def rootOk (t : Arpn) : Prop :=
  ArpWF t ∧ t.val.plen = 0 ∧ t.val.addr = 0

theorem arp_root0_rootOk : rootOk arp_root0 :=
  ⟨arp_root0_WF, rfl, rfl⟩

theorem rootOk_pre (t : Arpn) (b : Nat) (h : rootOk t) (hb : b < 2 ^ 32) :
    t.val.addr = topBits b t.val.plen := by
  rw [h.2.2, h.2.1, topBits_zero b hb]

/-- Root-level instance of `arp_insert_spec` with fuel 9. -/
theorem arp_insert_root (t : Arpn) (a when : Nat) (h : rootOk t)
    (hb : a < 2 ^ 32) :
    ∃ t' r, arp_insert arpFuel t a when = some (t', r) ∧ rootOk t' ∧
      arp_find arpFuel t' a = some r ∧
      (∀ b g, b < 2 ^ 32 → b ≠ a → arp_find g t' b = arp_find g t b) ∧
      (arp_find arpFuel t a = some r ∨
        (arp_find arpFuel t a = none ∧ r = arpFreshRec a when)) := by
  obtain ⟨t', r, heq, hwf, hval, _, _, hfind, hframe, hpres⟩ :=
    arp_insert_spec arpFuel t a when h.1 hb (rootOk_pre t a h hb)
      (by rw [h.2.1]; norm_num [arpFuel])
  refine ⟨t', r, heq, ⟨hwf, by rw [hval]; exact h.2.1, by rw [hval]; exact h.2.2⟩,
    ?_, ?_, ?_⟩
  · exact hfind arpFuel (by rw [h.2.1]; norm_num [arpFuel])
  · intro b g hblt hbne
    exact hframe b g hbne (by rw [← rootOk_pre t b h hblt])
  · exact hpres arpFuel (by rw [h.2.1]; norm_num [arpFuel])

/-- Root-level instance of `arp_update_spec` with fuel 9. -/
theorem arp_update_root (t : Arpn) (a : Nat) (f : ArpRec → ArpRec)
    (h : rootOk t) (hb : a < 2 ^ 32)
    (hfa : ∀ r, (f r).addr = r.addr) (hfp : ∀ r, (f r).plen = r.plen) :
    rootOk (arp_update arpFuel t a f) ∧
    arp_find arpFuel (arp_update arpFuel t a f) a =
      (arp_find arpFuel t a).map f ∧
    (∀ b g, b < 2 ^ 32 → b ≠ a →
      arp_find g (arp_update arpFuel t a f) b = arp_find g t b) := by
  obtain ⟨hwf, hplen, haddr, hfind, hframe⟩ :=
    arp_update_spec arpFuel t a f h.1 hb (rootOk_pre t a h hb)
      (by rw [h.2.1]; norm_num [arpFuel]) hfa hfp
  refine ⟨⟨hwf, by rw [hplen]; exact h.2.1, by rw [haddr]; exact h.2.2⟩,
    hfind arpFuel, ?_⟩
  intro b g hblt hbne
  exact hframe b g hbne (by rw [← rootOk_pre t b h hblt])

/-- Effect of `arp_register` on a root tree: the `/32` record for `ip`
ends with the observed link-layer address and `nreq = 0` (its other
fields kept from the pre-existing record, or zeroed with the `when`
stamp if fresh), and no other record changes. -/
theorem arp_register_spec (t : Arpn) (ip : Nat) (mac : EtherAddr)
    (when : Nat) (h : rootOk t) (hb : ip < 2 ^ 32) :
    ∃ t', arp_register t ip mac when = some t' ∧ rootOk t' ∧
      ((∃ r0, arp_find arpFuel t ip = some r0 ∧
          arp_find arpFuel t' ip = some { r0 with ether := mac, nreq := 0 }) ∨
        (arp_find arpFuel t ip = none ∧
          arp_find arpFuel t' ip =
            some { arpFreshRec ip when with ether := mac, nreq := 0 })) ∧
      (∀ b g, b < 2 ^ 32 → b ≠ ip → arp_find g t' b = arp_find g t b) := by
  obtain ⟨t1, r, heq, hok1, hfind1, hframe1, hpres1⟩ :=
    arp_insert_root t ip when h hb
  obtain ⟨hok2, hfind2, hframe2⟩ :=
    arp_update_root t1 ip (fun r => { r with ether := mac, nreq := 0 })
      hok1 hb (fun _ => rfl) (fun _ => rfl)
  refine ⟨_, ?_, hok2, ?_, ?_⟩
  · rw [arp_register, heq]
  · rw [hfind2, hfind1]
    rcases hpres1 with hsome | ⟨hnone, hfr⟩
    · exact Or.inl ⟨r, hsome, rfl⟩
    · right
      refine ⟨hnone, ?_⟩
      rw [hfr]
      rfl
  · intro b g hblt hbne
    rw [hframe2 b g hblt hbne, hframe1 b g hblt hbne]

/-- Effect of `arp_reserve` on a root tree: the `/32` record for `ip`
ends with `reserved = true` (other fields kept, or the zero record
stamped with time 0 if fresh), and no other record changes. -/
theorem arp_reserve_spec (t : Arpn) (ip : Nat) (h : rootOk t)
    (hb : ip < 2 ^ 32) :
    ∃ t', arp_reserve t ip = some t' ∧ rootOk t' ∧
      ((∃ r0, arp_find arpFuel t ip = some r0 ∧
          arp_find arpFuel t' ip = some { r0 with reserved := true }) ∨
        (arp_find arpFuel t ip = none ∧
          arp_find arpFuel t' ip =
            some { arpFreshRec ip 0 with reserved := true })) ∧
      (∀ b g, b < 2 ^ 32 → b ≠ ip → arp_find g t' b = arp_find g t b) := by
  obtain ⟨t1, r, heq, hok1, hfind1, hframe1, hpres1⟩ :=
    arp_insert_root t ip 0 h hb
  obtain ⟨hok2, hfind2, hframe2⟩ :=
    arp_update_root t1 ip (fun r => { r with reserved := true })
      hok1 hb (fun _ => rfl) (fun _ => rfl)
  refine ⟨_, ?_, hok2, ?_, ?_⟩
  · rw [arp_reserve, heq]
  · rw [hfind2, hfind1]
    rcases hpres1 with hsome | ⟨hnone, hfr⟩
    · exact Or.inl ⟨r, hsome, rfl⟩
    · right
      refine ⟨hnone, ?_⟩
      rw [hfr]
      rfl
  · intro b g hblt hbne
    rw [hframe2 b g hblt hbne, hframe1 b g hblt hbne]

/-- Effect of `packet_analyze_arp` on a well-formed, in-scope who-has
request over a root tree: the analyzer returns 0, registers the sender,
drives the target record `an` (as it stands after the sender
registration) through the claim state machine, emits exactly the coded
events, and changes no other record. -/
theorem whoHas_step (scope : Option (Nat → Bool)) (t : Arpn) (pkt : ArpPkt)
    (len sec usec : Nat) (h : rootOk t)
    (hop : pkt.oper = arp_oper_who_has)
    (hok : pkt.htype = arp_type_ether ∧ pkt.hlen = 6 ∧
      pkt.ptype = arp_type_ip4 ∧ pkt.plen = 4)
    (hlen : arp_pkt_size ≤ len)
    (hscope : ∀ f, scope = some f → f pkt.tpa = true)
    (hspa : pkt.spa < 2 ^ 32) (htpa : pkt.tpa < 2 ^ 32) :
    ∃ (t' : Arpn) (evs : List ArpEvent) (an : ArpRec),
      packet_analyze_arp scope t pkt len sec usec = some (0, t', evs) ∧
      rootOk t' ∧
      ((∃ r0, arp_find arpFuel t pkt.tpa = some r0 ∧
          an.claimed = r0.claimed ∧ an.reserved = r0.reserved ∧
          an.first = r0.first ∧ an.last = r0.last ∧
          an.ether = (if pkt.spa = pkt.tpa then pkt.sha else r0.ether) ∧
          an.nreq = (if pkt.spa = pkt.tpa then 0 else r0.nreq)) ∨
        (arp_find arpFuel t pkt.tpa = none ∧
          an.claimed = false ∧ an.reserved = false ∧
          an.first = pktWhen sec usec ∧ an.last = pktWhen sec usec ∧
          an.ether = (if pkt.spa = pkt.tpa then pkt.sha else etherZero) ∧
          an.nreq = 0)) ∧
      (if an.reserved then
        arp_find arpFuel t' pkt.tpa = some { an with nreq := 0 } ∧
          evs = [.registered pkt.spa]
      else if an.claimed then
        arp_find arpFuel t' pkt.tpa =
            some { an with nreq := 0, last := pktWhen sec usec } ∧
          evs = [.registered pkt.spa, .replySent pkt.tpa]
      else if an.nreq = 0 ∨ u64sub (pktWhen sec usec) an.last ≥ 30000 then
        arp_find arpFuel t' pkt.tpa =
            some { an with nreq := 1, first := pktWhen sec usec, last := pktWhen sec usec } ∧
          evs = [.registered pkt.spa]
      else if an.nreq ≥ 3 ∧ u64sub (pktWhen sec usec) an.first ≥ 3000 then
        arp_find arpFuel t' pkt.tpa =
            some { an with claimed := true, nreq := 0, last := pktWhen sec usec } ∧
          evs = [.registered pkt.spa, .replySent pkt.tpa]
      else
        arp_find arpFuel t' pkt.tpa =
            some { an with nreq := (an.nreq + 1) % u32mod, last := pktWhen sec usec } ∧
          evs = [.registered pkt.spa]) ∧
      (pkt.spa ≠ pkt.tpa →
        ((∃ s0, arp_find arpFuel t pkt.spa = some s0 ∧
            arp_find arpFuel t' pkt.spa =
              some { s0 with ether := pkt.sha, nreq := 0 }) ∨
          (arp_find arpFuel t pkt.spa = none ∧
            arp_find arpFuel t' pkt.spa =
              some { arpFreshRec pkt.spa (pktWhen sec usec) with ether := pkt.sha, nreq := 0 }))) ∧
      (∀ b g, b < 2 ^ 32 → b ≠ pkt.spa → b ≠ pkt.tpa →
        arp_find g t' b = arp_find g t b) := by
  obtain ⟨t1, hreq, hok1, hrec1, hframeReg⟩ :=
    arp_register_spec t pkt.spa pkt.sha (pktWhen sec usec) h hspa
  obtain ⟨t2, an, hineq, hok2, hfindIns, hframeIns, hpresIns⟩ :=
    arp_insert_root t1 pkt.tpa (pktWhen sec usec) hok1 htpa
  have hsc : scopeExcludes scope pkt.tpa = false := by
    cases scope with
    | none => rfl
    | some f => simp [scopeExcludes, hscope f rfl]
  -- the target record after the sender registration, related to the
  -- pre-state record
  have hanrel : (∃ r0, arp_find arpFuel t pkt.tpa = some r0 ∧
      an.claimed = r0.claimed ∧ an.reserved = r0.reserved ∧
      an.first = r0.first ∧ an.last = r0.last ∧
      an.ether = (if pkt.spa = pkt.tpa then pkt.sha else r0.ether) ∧
      an.nreq = (if pkt.spa = pkt.tpa then 0 else r0.nreq)) ∨
      (arp_find arpFuel t pkt.tpa = none ∧
        an.claimed = false ∧ an.reserved = false ∧
        an.first = pktWhen sec usec ∧ an.last = pktWhen sec usec ∧
        an.ether = (if pkt.spa = pkt.tpa then pkt.sha else etherZero) ∧
        an.nreq = 0) := by
    by_cases hst : pkt.spa = pkt.tpa
    · rw [← hst] at hpresIns ⊢
      rcases hrec1 with ⟨r0, hr0, hr1⟩ | ⟨hr0, hr1⟩
      · rcases hpresIns with hsome | ⟨hnone, _⟩
        · rw [hr1] at hsome
          cases hsome
          exact Or.inl ⟨r0, hr0, rfl, rfl, rfl, rfl, by rw [if_pos rfl],
            by rw [if_pos rfl]⟩
        · rw [hr1] at hnone
          exact absurd hnone (by simp)
      · rcases hpresIns with hsome | ⟨hnone, _⟩
        · rw [hr1] at hsome
          cases hsome
          exact Or.inr ⟨hr0, rfl, rfl, rfl, rfl, by rw [if_pos rfl], rfl⟩
        · rw [hr1] at hnone
          exact absurd hnone (by simp)
    · have hsame : arp_find arpFuel t1 pkt.tpa = arp_find arpFuel t pkt.tpa :=
        hframeReg pkt.tpa arpFuel htpa (fun hh => hst hh.symm)
      rcases hpresIns with hsome | ⟨hnone, hfr⟩
      · rw [hsame] at hsome
        exact Or.inl ⟨an, hsome, rfl, rfl, rfl, rfl, by rw [if_neg hst],
          by rw [if_neg hst]⟩
      · rw [hsame] at hnone
        rw [hfr]
        exact Or.inr ⟨hnone, rfl, rfl, rfl, rfl, by rw [if_neg hst]; rfl, rfl⟩
  by_cases hres : an.reserved = true
  · obtain ⟨hok3, hfind3, hframe3⟩ := arp_update_root t2 pkt.tpa
      (fun r => { r with nreq := 0 }) hok2 htpa (fun _ => rfl) (fun _ => rfl)
    refine ⟨arp_update arpFuel t2 pkt.tpa (fun r => { r with nreq := 0 }),
        [.registered pkt.spa], an, ?_, hok3, hanrel, ?_, ?_, ?_⟩
    · simp only [packet_analyze_arp]
      rw [if_neg (show ¬ len < arp_pkt_size from by omega),
        if_neg (not_not_intro hok),
        if_neg (not_not_intro (Or.inl hop)), if_pos hop, hsc,
        if_neg (show ¬ false = true from by simp)]
      simp only [hreq, hineq]
      rw [if_pos hres]
    · rw [if_pos hres]
      refine ⟨?_, rfl⟩
      rw [hfind3, hfindIns]
      rfl
    · intro hst
      have hsp3 : arp_find arpFuel (arp_update arpFuel t2 pkt.tpa (fun r => { r with nreq := 0 })) pkt.spa = arp_find arpFuel t1 pkt.spa := by
        rw [hframe3 pkt.spa arpFuel hspa hst,
          hframeIns pkt.spa arpFuel hspa hst]
      rw [hsp3]
      exact hrec1
    · intro b g hblt hbs hbt
      rw [hframe3 b g hblt hbt, hframeIns b g hblt hbt,
        hframeReg b g hblt hbs]
  · 
    by_cases hcl : an.claimed = true
    · obtain ⟨hok3, hfind3, hframe3⟩ := arp_update_root t2 pkt.tpa
        (fun r => { r with nreq := 0, last := pktWhen sec usec }) hok2 htpa (fun _ => rfl) (fun _ => rfl)
      refine ⟨arp_update arpFuel t2 pkt.tpa (fun r => { r with nreq := 0, last := pktWhen sec usec }),
        [.registered pkt.spa, .replySent pkt.tpa], an, ?_, hok3, hanrel, ?_, ?_, ?_⟩
      · simp only [packet_analyze_arp]
        rw [if_neg (show ¬ len < arp_pkt_size from by omega),
          if_neg (not_not_intro hok),
          if_neg (not_not_intro (Or.inl hop)), if_pos hop, hsc,
          if_neg (show ¬ false = true from by simp)]
        simp only [hreq, hineq]
        rw [if_neg hres]
        rw [if_pos hcl]
      · rw [if_neg hres, if_pos hcl]
        refine ⟨?_, rfl⟩
        rw [hfind3, hfindIns]
        rfl
      · intro hst
        have hsp3 : arp_find arpFuel (arp_update arpFuel t2 pkt.tpa (fun r => { r with nreq := 0, last := pktWhen sec usec })) pkt.spa = arp_find arpFuel t1 pkt.spa := by
          rw [hframe3 pkt.spa arpFuel hspa hst,
            hframeIns pkt.spa arpFuel hspa hst]
        rw [hsp3]
        exact hrec1
      · intro b g hblt hbs hbt
        rw [hframe3 b g hblt hbt, hframeIns b g hblt hbt,
          hframeReg b g hblt hbs]
    · 
      by_cases hns : an.nreq = 0 ∨ u64sub (pktWhen sec usec) an.last ≥ 30000
      · obtain ⟨hok3, hfind3, hframe3⟩ := arp_update_root t2 pkt.tpa
          (fun r => { r with nreq := 1, first := pktWhen sec usec, last := pktWhen sec usec }) hok2 htpa (fun _ => rfl) (fun _ => rfl)
        refine ⟨arp_update arpFuel t2 pkt.tpa (fun r => { r with nreq := 1, first := pktWhen sec usec, last := pktWhen sec usec }),
        [.registered pkt.spa], an, ?_, hok3, hanrel, ?_, ?_, ?_⟩
        · simp only [packet_analyze_arp]
          rw [if_neg (show ¬ len < arp_pkt_size from by omega),
            if_neg (not_not_intro hok),
            if_neg (not_not_intro (Or.inl hop)), if_pos hop, hsc,
            if_neg (show ¬ false = true from by simp)]
          simp only [hreq, hineq]
          rw [if_neg hres]
          rw [if_neg hcl]
          rw [if_pos hns]
        · rw [if_neg hres, if_neg hcl, if_pos hns]
          refine ⟨?_, rfl⟩
          rw [hfind3, hfindIns]
          rfl
        · intro hst
          have hsp3 : arp_find arpFuel (arp_update arpFuel t2 pkt.tpa (fun r => { r with nreq := 1, first := pktWhen sec usec, last := pktWhen sec usec })) pkt.spa = arp_find arpFuel t1 pkt.spa := by
            rw [hframe3 pkt.spa arpFuel hspa hst,
              hframeIns pkt.spa arpFuel hspa hst]
          rw [hsp3]
          exact hrec1
        · intro b g hblt hbs hbt
          rw [hframe3 b g hblt hbt, hframeIns b g hblt hbt,
            hframeReg b g hblt hbs]
      · 
        by_cases hth : an.nreq ≥ 3 ∧ u64sub (pktWhen sec usec) an.first ≥ 3000
        · obtain ⟨hok3, hfind3, hframe3⟩ := arp_update_root t2 pkt.tpa
            (fun r => { r with claimed := true, nreq := 0, last := pktWhen sec usec }) hok2 htpa (fun _ => rfl) (fun _ => rfl)
          refine ⟨arp_update arpFuel t2 pkt.tpa (fun r => { r with claimed := true, nreq := 0, last := pktWhen sec usec }),
        [.registered pkt.spa, .replySent pkt.tpa], an, ?_, hok3, hanrel, ?_, ?_, ?_⟩
          · simp only [packet_analyze_arp]
            rw [if_neg (show ¬ len < arp_pkt_size from by omega),
              if_neg (not_not_intro hok),
              if_neg (not_not_intro (Or.inl hop)), if_pos hop, hsc,
              if_neg (show ¬ false = true from by simp)]
            simp only [hreq, hineq]
            rw [if_neg hres]
            rw [if_neg hcl]
            rw [if_neg hns]
            rw [if_pos hth]
          · rw [if_neg hres, if_neg hcl, if_neg hns, if_pos hth]
            refine ⟨?_, rfl⟩
            rw [hfind3, hfindIns]
            rfl
          · intro hst
            have hsp3 : arp_find arpFuel (arp_update arpFuel t2 pkt.tpa (fun r => { r with claimed := true, nreq := 0, last := pktWhen sec usec })) pkt.spa = arp_find arpFuel t1 pkt.spa := by
              rw [hframe3 pkt.spa arpFuel hspa hst,
                hframeIns pkt.spa arpFuel hspa hst]
            rw [hsp3]
            exact hrec1
          · intro b g hblt hbs hbt
            rw [hframe3 b g hblt hbt, hframeIns b g hblt hbt,
              hframeReg b g hblt hbs]
        · obtain ⟨hok3, hfind3, hframe3⟩ := arp_update_root t2 pkt.tpa
            (fun r => { r with nreq := (r.nreq + 1) % u32mod, last := pktWhen sec usec }) hok2 htpa (fun _ => rfl) (fun _ => rfl)
          refine ⟨arp_update arpFuel t2 pkt.tpa (fun r => { r with nreq := (r.nreq + 1) % u32mod, last := pktWhen sec usec }),
        [.registered pkt.spa], an, ?_, hok3, hanrel, ?_, ?_, ?_⟩
          · simp only [packet_analyze_arp]
            rw [if_neg (show ¬ len < arp_pkt_size from by omega),
              if_neg (not_not_intro hok),
              if_neg (not_not_intro (Or.inl hop)), if_pos hop, hsc,
              if_neg (show ¬ false = true from by simp)]
            simp only [hreq, hineq]
            rw [if_neg hres]
            rw [if_neg hcl]
            rw [if_neg hns]
            rw [if_neg hth]
          · rw [if_neg hres, if_neg hcl, if_neg hns, if_neg hth]
            refine ⟨?_, rfl⟩
            rw [hfind3, hfindIns]
            rfl
          · intro hst
            have hsp3 : arp_find arpFuel (arp_update arpFuel t2 pkt.tpa (fun r => { r with nreq := (r.nreq + 1) % u32mod, last := pktWhen sec usec })) pkt.spa = arp_find arpFuel t1 pkt.spa := by
              rw [hframe3 pkt.spa arpFuel hspa hst,
                hframeIns pkt.spa arpFuel hspa hst]
            rw [hsp3]
            exact hrec1
          · intro b g hblt hbs hbt
            rw [hframe3 b g hblt hbt, hframeIns b g hblt hbt,
              hframeReg b g hblt hbs]

/-! ### Remaining tracker claims -/

/-- `arp_find` only ever returns the record of a `/32` node: the
descent stops with `some` exactly at `plen = 32`. -/
theorem arp_find_plen32 (g : Nat) (t : Arpn) (a : Nat) (r : ArpRec)
    (h : arp_find g t a = some r) : r.plen = 32 := by
  induction g generalizing t with
  | zero => simp [arp_find] at h
  | succ g ih =>
    cases t with
    | node v sub =>
      rw [arp_find] at h
      by_cases hp : v.plen = 32
      · rw [if_pos hp] at h
        cases h
        exact hp
      · rw [if_neg hp] at h
        cases hc : sub.getD ((a >>> (32 - (v.plen + 4))) % 16) none with
        | none => rw [hc] at h; cases h
        | some c => rw [hc] at h; exact ih c h

/-- **C8.** On a well-formed root tree, `arp_register(ip, mac, t)`
succeeds and an immediate `arp_lookup(ip)` returns exactly `mac`; and
`arp_lookup` on an address whose nibble path does not exist in the tree
reports the address as absent (`none`, the C's `-1`). -/
theorem c8_register_then_lookup (t : Arpn) (ip b : Nat) (mac : EtherAddr)
    (when : Nat) (h : rootOk t) (hip : ip < 2 ^ 32) :
    (∃ t', arp_register t ip mac when = some t' ∧
      arp_lookup t' ip = some mac) ∧
    (arp_find arpFuel t b = none → arp_lookup t b = none) := by
  constructor
  · obtain ⟨t', heq, hok', hrec, _⟩ := arp_register_spec t ip mac when h hip
    refine ⟨t', heq, ?_⟩
    rw [arp_lookup_eq_find t' ip hok'.1 hok'.2.1]
    rcases hrec with ⟨r0, _, hfind⟩ | ⟨_, hfind⟩ <;> rw [hfind] <;> rfl
  · intro hnone
    rw [arp_lookup_eq_find t b h.1 h.2.1, hnone]
    rfl

theorem c8_register_then_lookup_witness :
    (∃ t', arp_register arp_root0 5 ⟨1, 2, 3, 4, 5, 6⟩ 7 = some t' ∧
      arp_lookup t' 5 = some ⟨1, 2, 3, 4, 5, 6⟩) ∧
    (arp_find arpFuel arp_root0 9 = none → arp_lookup arp_root0 9 = none) :=
  c8_register_then_lookup arp_root0 5 9 ⟨1, 2, 3, 4, 5, 6⟩ 7
    arp_root0_rootOk (by norm_num)

/-- A sequence of `arp_insert` calls from the zeroed root, as performed
by the capture loop: each element is an address with its timestamp.
`none` models an `ft_assert` failure at any step. -/
def arpInsertRun : Arpn → List (Nat × Nat) → Option Arpn
  | t, [] => some t
  | t, (a, when) :: ops =>
    match arp_insert arpFuel t a when with
    | none => none
    | some (t', _) => arpInsertRun t' ops

/-- Every insertion sequence over in-range addresses succeeds from the
zeroed root and preserves the root invariant. -/
theorem arpInsertRun_rootOk (ops : List (Nat × Nat)) :
    ∀ t : Arpn, rootOk t → (∀ p ∈ ops, (p : Nat × Nat).1 < 2 ^ 32) →
    ∃ t', arpInsertRun t ops = some t' ∧ rootOk t' := by
  induction ops with
  | nil => exact fun t h _ => ⟨t, rfl, h⟩
  | cons p ops ih =>
    intro t h hops
    obtain ⟨a, when⟩ := p
    obtain ⟨t1, r, heq, hok1, -, -, -⟩ :=
      arp_insert_root t a when h (hops _ (List.mem_cons_self _ _))
    obtain ⟨t', hrun, hok'⟩ :=
      ih t1 hok1 (fun q hq => hops q (List.mem_cons_of_mem _ hq))
    refine ⟨t', ?_, hok'⟩
    rw [arpInsertRun, heq]
    exact hrun

/-- **C9.** Along every tracker tree reachable from the zeroed root by
`arp_insert` calls on 32-bit addresses, a further `arp_insert` for any
32-bit address `a` succeeds (the `ft_assert` comparing the stored
address of the depth-32 node with `a` never aborts, which the embedding
renders as `arp_insert` never returning `none`), and the `/32` record it
reaches stores exactly the address `a`. -/
theorem c9_insert_assert_never_fails (ops : List (Nat × Nat))
    (hops : ∀ p ∈ ops, (p : Nat × Nat).1 < 2 ^ 32) :
    ∃ t', arpInsertRun arp_root0 ops = some t' ∧
      ∀ a when, a < 2 ^ 32 →
        ∃ t'' r, arp_insert arpFuel t' a when = some (t'', r) ∧
          r.plen = 32 ∧ r.addr = a := by
  obtain ⟨t', hrun, hok'⟩ := arpInsertRun_rootOk ops arp_root0 arp_root0_rootOk hops
  refine ⟨t', hrun, ?_⟩
  intro a when ha
  obtain ⟨t'', r, heq, -, -, hp32, haddr, -, -, -⟩ :=
    arp_insert_spec arpFuel t' a when hok'.1 ha (rootOk_pre t' a hok' ha)
      (by rw [hok'.2.1]; norm_num [arpFuel])
  exact ⟨t'', r, heq, hp32, haddr⟩

theorem c9_insert_assert_never_fails_witness :
    ∃ t', arpInsertRun arp_root0 [(0, 0), (4294967295, 3), (81, 5)] = some t' ∧
      ∀ a when, a < 2 ^ 32 →
        ∃ t'' r, arp_insert arpFuel t' a when = some (t'', r) ∧
          r.plen = 32 ∧ r.addr = a :=
  c9_insert_assert_never_fails [(0, 0), (4294967295, 3), (81, 5)]
    (by intro p hp; fin_cases hp <;> norm_num)

/-- **C10.** A valid, in-scope who-has request (sender distinct from the
target) whose target address has no `/32` record yet — or only a record
whose stored link-layer address is still all-zero, as is the case when
the target was never passed to `arp_register` — leaves the tracker with
a `/32` record for the target, and a subsequent `arp_lookup` on the
target *succeeds*, returning the all-zero link-layer address instead of
reporting the address as absent. -/
theorem c10_unregistered_target_lookup_zero (scope : Option (Nat → Bool))
    (t : Arpn) (pkt : ArpPkt) (len sec usec : Nat) (h : rootOk t)
    (hop : pkt.oper = arp_oper_who_has)
    (hok : pkt.htype = arp_type_ether ∧ pkt.hlen = 6 ∧
      pkt.ptype = arp_type_ip4 ∧ pkt.plen = 4)
    (hlen : arp_pkt_size ≤ len)
    (hscope : ∀ f, scope = some f → f pkt.tpa = true)
    (hspa : pkt.spa < 2 ^ 32) (htpa : pkt.tpa < 2 ^ 32)
    (hne : pkt.spa ≠ pkt.tpa)
    (hunreg : arp_find arpFuel t pkt.tpa = none ∨
      ∃ r0, arp_find arpFuel t pkt.tpa = some r0 ∧ r0.ether = etherZero) :
    ∃ t' evs r,
      packet_analyze_arp scope t pkt len sec usec = some (0, t', evs) ∧
      arp_find arpFuel t' pkt.tpa = some r ∧ r.plen = 32 ∧
      arp_lookup t' pkt.tpa = some etherZero := by
  obtain ⟨t', evs, an, heq, hok', hanrel, hbranch, -, -⟩ :=
    whoHas_step scope t pkt len sec usec h hop hok hlen hscope hspa htpa
  have hanz : an.ether = etherZero := by
    rcases hanrel with ⟨r0, hr0, -, -, -, -, heth, -⟩ | ⟨hr0, -, -, -, -, heth, -⟩
    · rcases hunreg with hnone | ⟨r1, hr1, hz⟩
      · rw [hr0] at hnone; cases hnone
      · rw [hr0] at hr1
        cases hr1
        rw [heth, if_neg hne]
        exact hz
    · rw [heth, if_neg hne]
  have hlk : ∀ r' : ArpRec, arp_find arpFuel t' pkt.tpa = some r' →
      r'.ether = an.ether →
      ∃ r, arp_find arpFuel t' pkt.tpa = some r ∧ r.plen = 32 ∧
        arp_lookup t' pkt.tpa = some etherZero := by
    intro r' hf hethr
    refine ⟨r', hf, arp_find_plen32 arpFuel t' pkt.tpa r' hf, ?_⟩
    rw [arp_lookup_eq_find t' pkt.tpa hok'.1 hok'.2.1, hf,
      Option.map_some', hethr, hanz]
  refine ⟨t', evs, ?_⟩
  split_ifs at hbranch with h1 h2 h3 h4 <;>
    · obtain ⟨r, hf, hp, hl⟩ := hlk _ hbranch.1 rfl
      exact ⟨r, heq, hf, hp, hl⟩

def pktC10 : ArpPkt :=
  ⟨1, 0x0800, 6, 4, 1, ⟨1, 2, 3, 4, 5, 6⟩, 9, ⟨0, 0, 0, 0, 0, 0⟩, 5⟩

theorem c10_unregistered_target_lookup_zero_witness :
    ∃ t' evs r,
      packet_analyze_arp none arp_root0 pktC10 28 0 0 = some (0, t', evs) ∧
      arp_find arpFuel t' pktC10.tpa = some r ∧ r.plen = 32 ∧
      arp_lookup t' pktC10.tpa = some etherZero :=
  c10_unregistered_target_lookup_zero none arp_root0 pktC10 28 0 0
    arp_root0_rootOk rfl ⟨rfl, rfl, rfl, rfl⟩ (by norm_num [arp_pkt_size])
    (fun f hf => nomatch hf) (by norm_num [pktC10]) (by norm_num [pktC10])
    (by norm_num [pktC10]) (Or.inl rfl)

/-- **C7.** With the default thresholds, a who-has request at time 0 for
a target with no prior record, followed by a second who-has request for
the same target at time 31000 ms (a gap of at least 30000 ms), leaves
the target record with `nreq = 1` and `first = last = 31000` after the
second request — the stale-gap branch resets the counter — and the
second request never sets the `claimed` flag nor triggers a reply. -/
theorem c7_stale_gap_resets (scope : Option (Nat → Bool)) (t : Arpn)
    (pkt1 pkt2 : ArpPkt) (len1 len2 : Nat) (h : rootOk t)
    (hop1 : pkt1.oper = arp_oper_who_has)
    (hop2 : pkt2.oper = arp_oper_who_has)
    (hok1 : pkt1.htype = arp_type_ether ∧ pkt1.hlen = 6 ∧
      pkt1.ptype = arp_type_ip4 ∧ pkt1.plen = 4)
    (hok2 : pkt2.htype = arp_type_ether ∧ pkt2.hlen = 6 ∧
      pkt2.ptype = arp_type_ip4 ∧ pkt2.plen = 4)
    (hlen1 : arp_pkt_size ≤ len1) (hlen2 : arp_pkt_size ≤ len2)
    (htgt : pkt2.tpa = pkt1.tpa)
    (hscope1 : ∀ f, scope = some f → f pkt1.tpa = true)
    (hspa1 : pkt1.spa < 2 ^ 32) (htpa1 : pkt1.tpa < 2 ^ 32)
    (hspa2 : pkt2.spa < 2 ^ 32)
    (hfresh : arp_find arpFuel t pkt1.tpa = none) :
    ∃ t1 evs1 t2 evs2 r2,
      packet_analyze_arp scope t pkt1 len1 0 0 = some (0, t1, evs1) ∧
      packet_analyze_arp scope t1 pkt2 len2 31 0 = some (0, t2, evs2) ∧
      arp_find arpFuel t2 pkt1.tpa = some r2 ∧
      r2.nreq = 1 ∧ r2.first = 31000 ∧ r2.last = 31000 ∧
      r2.claimed = false ∧
      ArpEvent.replySent pkt1.tpa ∉ evs2 := by
  obtain ⟨t1, evs1, an1, heq1, hok1', hanrel1, hbranch1, -, -⟩ :=
    whoHas_step scope t pkt1 len1 0 0 h hop1 hok1 hlen1 hscope1 hspa1 htpa1
  rcases hanrel1 with ⟨r0, hr0, -⟩ | ⟨-, hcl1, hres1, hfi1, hla1, -, hnr1⟩
  · rw [hfresh] at hr0; cases hr0
  rw [if_neg (show ¬an1.reserved = true from by simp [hres1]),
    if_neg (show ¬an1.claimed = true from by simp [hcl1]),
    if_pos (Or.inl hnr1)] at hbranch1
  have htpa2 : pkt2.tpa < 2 ^ 32 := by rw [htgt]; exact htpa1
  have hscope2 : ∀ f, scope = some f → f pkt2.tpa = true := by
    rw [htgt]; exact hscope1
  obtain ⟨t2, evs2, an2, heq2, hok2', hanrel2, hbranch2, -, -⟩ :=
    whoHas_step scope t1 pkt2 len2 31 0 hok1' hop2 hok2 hlen2 hscope2
      hspa2 htpa2
  rcases hanrel2 with ⟨r0, hr0, hcl2, hres2, hfi2, hla2, -, hnr2⟩ | ⟨hr0, -⟩
  · rw [htgt, hbranch1.1] at hr0
    cases hr0
    have hres2' : an2.reserved = false := by rw [hres2]; exact hres1
    have hcl2' : an2.claimed = false := by rw [hcl2]; exact hcl1
    have hla2' : an2.last = pktWhen 0 0 := by rw [hla2]
    rw [if_neg (show ¬an2.reserved = true from by simp [hres2']),
      if_neg (show ¬an2.claimed = true from by simp [hcl2']),
      if_pos (Or.inr (show u64sub (pktWhen 31 0) an2.last ≥ 30000 from by
        rw [hla2']; decide))] at hbranch2
    refine ⟨t1, evs1, t2, evs2,
      { an2 with nreq := 1, first := pktWhen 31 0, last := pktWhen 31 0 },
      heq1, heq2, ?_, rfl, (by decide : pktWhen 31 0 = 31000),
      (by decide : pktWhen 31 0 = 31000), hcl2', ?_⟩
    · rw [← htgt]; exact hbranch2.1
    · rw [hbranch2.2]
      simp
  · rw [htgt, hbranch1.1] at hr0
    cases hr0

def pktC7a : ArpPkt :=
  ⟨1, 0x0800, 6, 4, 1, ⟨1, 2, 3, 4, 5, 6⟩, 9, ⟨0, 0, 0, 0, 0, 0⟩, 5⟩

def pktC7b : ArpPkt :=
  ⟨1, 0x0800, 6, 4, 1, ⟨7, 8, 9, 1, 2, 3⟩, 10, ⟨0, 0, 0, 0, 0, 0⟩, 5⟩

theorem c7_stale_gap_resets_witness :
    ∃ t1 evs1 t2 evs2 r2,
      packet_analyze_arp none arp_root0 pktC7a 28 0 0 = some (0, t1, evs1) ∧
      packet_analyze_arp none t1 pktC7b 28 31 0 = some (0, t2, evs2) ∧
      arp_find arpFuel t2 pktC7a.tpa = some r2 ∧
      r2.nreq = 1 ∧ r2.first = 31000 ∧ r2.last = 31000 ∧
      r2.claimed = false ∧
      ArpEvent.replySent pktC7a.tpa ∉ evs2 :=
  c7_stale_gap_resets none arp_root0 pktC7a pktC7b 28 28 arp_root0_rootOk
    rfl rfl ⟨rfl, rfl, rfl, rfl⟩ ⟨rfl, rfl, rfl, rfl⟩
    (by norm_num [arp_pkt_size]) (by norm_num [arp_pkt_size]) rfl
    (fun f hf => nomatch hf) (by decide) (by decide)
    (by decide) rfl

/-- Run a list of captured packets (each with its wire length and
timestamp) through `packet_analyze_arp` under a fixed scope set,
accumulating the emitted events; `none` propagates an `ft_assert`
abort. -/
def whoHasRun (scope : Option (Nat → Bool)) :
    Arpn → List (ArpPkt × Nat × Nat × Nat) → Option (Arpn × List ArpEvent)
  | t, [] => some (t, [])
  | t, (pkt, len, sec, usec) :: ops =>
    match packet_analyze_arp scope t pkt len sec usec with
    | none => none
    | some (_, t1, evs1) =>
      match whoHasRun scope t1 ops with
      | none => none
      | some (t', evs) => some (t', evs1 ++ evs)

/-- One who-has packet (of any length, any timing, any scope) keeps a
reserved record reserved, leaves its `claimed` flag untouched, and emits
no reply for its address. -/
theorem c6_step (scope : Option (Nat → Bool)) (t : Arpn) (pkt : ArpPkt)
    (len sec usec : Nat) (x : Nat) (h : rootOk t) (hx : x < 2 ^ 32)
    (hop : pkt.oper = arp_oper_who_has)
    (hspa : pkt.spa < 2 ^ 32) (htpa : pkt.tpa < 2 ^ 32)
    (r : ArpRec) (hr : arp_find arpFuel t x = some r)
    (hrsv : r.reserved = true)
    (ret : Int) (t' : Arpn) (evs : List ArpEvent)
    (hpkt : packet_analyze_arp scope t pkt len sec usec = some (ret, t', evs)) :
    rootOk t' ∧
    (∃ r', arp_find arpFuel t' x = some r' ∧ r'.reserved = true ∧
      r'.claimed = r.claimed) ∧
    ArpEvent.replySent x ∉ evs := by
  by_cases hl : len < arp_pkt_size
  · simp only [packet_analyze_arp] at hpkt
    rw [if_pos hl, Option.some.injEq, Prod.mk.injEq, Prod.mk.injEq] at hpkt
    obtain ⟨-, ht', hevs⟩ := hpkt
    subst ht'; subst hevs
    exact ⟨h, ⟨r, hr, hrsv, rfl⟩, by simp⟩
  · by_cases hvf : pkt.htype = arp_type_ether ∧ pkt.hlen = 6 ∧
        pkt.ptype = arp_type_ip4 ∧ pkt.plen = 4
    · by_cases hse : scopeExcludes scope pkt.tpa = true
      · simp only [packet_analyze_arp] at hpkt
        rw [if_neg hl, if_neg (not_not_intro hvf),
          if_neg (not_not_intro (Or.inl hop)), if_pos hop, if_pos hse,
          Option.some.injEq, Prod.mk.injEq, Prod.mk.injEq] at hpkt
        obtain ⟨-, ht', hevs⟩ := hpkt
        subst ht'; subst hevs
        exact ⟨h, ⟨r, hr, hrsv, rfl⟩, by simp⟩
      · have hlen : arp_pkt_size ≤ len := by omega
        have hscope : ∀ f, scope = some f → f pkt.tpa = true := by
          intro f hf
          rw [hf] at hse
          simpa [scopeExcludes] using hse
        obtain ⟨t2, evs2, an, heq, hok2, hanrel, hbranch, hspac, hframe⟩ :=
          whoHas_step scope t pkt len sec usec h hop hvf hlen hscope hspa htpa
        rw [heq, Option.some.injEq, Prod.mk.injEq, Prod.mk.injEq] at hpkt
        obtain ⟨-, ht', hevs⟩ := hpkt
        subst ht'; subst hevs
        have hevs2 : evs2 = [ArpEvent.registered pkt.spa] ∨
            evs2 = [ArpEvent.registered pkt.spa, ArpEvent.replySent pkt.tpa] := by
          split_ifs at hbranch with h1 h2 h3 h4
          · exact Or.inl hbranch.2
          · exact Or.inr hbranch.2
          · exact Or.inl hbranch.2
          · exact Or.inr hbranch.2
          · exact Or.inl hbranch.2
        refine ⟨hok2, ?_⟩
        by_cases hxt : x = pkt.tpa
        · subst hxt
          have han : an.reserved = true ∧ an.claimed = r.claimed := by
            rcases hanrel with ⟨r0, hr0, hcl, hrs, -, -, -, -⟩ | ⟨hr0, -⟩
            · rw [hr] at hr0
              cases hr0
              exact ⟨by rw [hrs]; exact hrsv, hcl⟩
            · rw [hr] at hr0; cases hr0
          rw [if_pos han.1] at hbranch
          refine ⟨⟨{ an with nreq := 0 }, hbranch.1, han.1, han.2⟩, ?_⟩
          rw [hbranch.2]
          simp
        · by_cases hxs : x = pkt.spa
          · subst hxs
            have hst : pkt.spa ≠ pkt.tpa := hxt
            rcases hspac hst with ⟨s0, hs0, hf'⟩ | ⟨hs0, hf'⟩
            · rw [hr] at hs0
              cases hs0
              refine ⟨⟨_, hf', hrsv, rfl⟩, ?_⟩
              rcases hevs2 with he | he <;> rw [he] <;> simp [hst]
            · rw [hr] at hs0; cases hs0
          · have hff : arp_find arpFuel t2 x = arp_find arpFuel t x :=
              hframe x arpFuel hx hxs hxt
            refine ⟨⟨r, by rw [hff]; exact hr, hrsv, rfl⟩, ?_⟩
            rcases hevs2 with he | he <;> rw [he] <;> simp [hxt]
    · simp only [packet_analyze_arp] at hpkt
      rw [if_neg hl, if_pos hvf, Option.some.injEq, Prod.mk.injEq,
        Prod.mk.injEq] at hpkt
      obtain ⟨-, ht', hevs⟩ := hpkt
      subst ht'; subst hevs
      exact ⟨h, ⟨r, hr, hrsv, rfl⟩, by simp⟩

/-- The reserved-record invariant carried through a whole packet run. -/
theorem whoHasRun_reserved_inv (scope : Option (Nat → Bool)) (x : Nat)
    (hx : x < 2 ^ 32) (ops : List (ArpPkt × Nat × Nat × Nat)) :
    ∀ t : Arpn, rootOk t →
    (∀ p ∈ ops, (p : ArpPkt × Nat × Nat × Nat).1.oper = arp_oper_who_has ∧
      p.1.spa < 2 ^ 32 ∧ p.1.tpa < 2 ^ 32) →
    ∀ r : ArpRec, arp_find arpFuel t x = some r → r.reserved = true →
    ∀ t' evs, whoHasRun scope t ops = some (t', evs) →
    ∃ r', arp_find arpFuel t' x = some r' ∧ r'.reserved = true ∧
      r'.claimed = r.claimed ∧ ArpEvent.replySent x ∉ evs := by
  induction ops with
  | nil =>
    intro t h _ r hr hrsv t' evs hrun
    rw [whoHasRun, Option.some.injEq, Prod.mk.injEq] at hrun
    obtain ⟨ht', hevs⟩ := hrun
    subst ht'; subst hevs
    exact ⟨r, hr, hrsv, rfl, by simp⟩
  | cons p ops ih =>
    intro t h hops r hr hrsv t' evs hrun
    obtain ⟨pkt, len, sec, usec⟩ := p
    cases heq1 : packet_analyze_arp scope t pkt len sec usec with
    | none =>
      simp only [whoHasRun, heq1] at hrun
      cases hrun
    | some q =>
      obtain ⟨ret1, t1, evs1⟩ := q
      simp only [whoHasRun, heq1] at hrun
      obtain ⟨hp1, hp2, hp3⟩ := hops _ (List.mem_cons_self _ _)
      obtain ⟨hok1, ⟨r1, hr1, hrsv1, hcl1⟩, hnin1⟩ :=
        c6_step scope t pkt len sec usec x h hx hp1 hp2 hp3 r hr hrsv
          ret1 t1 evs1 heq1
      cases hrun2 : whoHasRun scope t1 ops with
      | none => rw [hrun2] at hrun; cases hrun
      | some q2 =>
        obtain ⟨t'', evs''⟩ := q2
        rw [hrun2] at hrun
        rw [Option.some.injEq, Prod.mk.injEq] at hrun
        obtain ⟨ht', hevs⟩ := hrun
        subst ht'; subst hevs
        obtain ⟨r', hr', hrsv', hcl', hnin'⟩ :=
          ih t1 hok1 (fun q hq => hops q (List.mem_cons_of_mem _ hq))
            r1 hr1 hrsv1 t'' evs'' hrun2
        refine ⟨r', hr', hrsv', by rw [hcl', hcl1], ?_⟩
        exact fun hmem =>
          (List.mem_append.1 hmem).elim (fun hm => hnin1 hm)
            (fun hm => hnin' hm)

/-- **C6.** Once `arp_reserve` has marked an address reserved, no
sequence of who-has requests — of any number, timing, length, or scope —
run through `packet_analyze_arp` ever changes that record's `claimed`
flag or emits a reply (`replySent`) for the reserved address; the
reserved branch of the state machine short-circuits every request. -/
theorem c6_reserved_never_claimed (scope : Option (Nat → Bool)) (t : Arpn)
    (x : Nat) (ops : List (ArpPkt × Nat × Nat × Nat))
    (h : rootOk t) (hx : x < 2 ^ 32)
    (hops : ∀ p ∈ ops, (p : ArpPkt × Nat × Nat × Nat).1.oper = arp_oper_who_has ∧
      p.1.spa < 2 ^ 32 ∧ p.1.tpa < 2 ^ 32)
    (t0 : Arpn) (hres : arp_reserve t x = some t0)
    (t' : Arpn) (evs : List ArpEvent)
    (hrun : whoHasRun scope t0 ops = some (t', evs)) :
    ∃ r0 r', arp_find arpFuel t0 x = some r0 ∧ r0.reserved = true ∧
      arp_find arpFuel t' x = some r' ∧ r'.reserved = true ∧
      r'.claimed = r0.claimed ∧
      ArpEvent.replySent x ∉ evs := by
  obtain ⟨t0', heq0, hok0, hrec0, -⟩ := arp_reserve_spec t x h hx
  rw [hres, Option.some.injEq] at heq0
  subst heq0
  have hfound : ∃ r0, arp_find arpFuel t0 x = some r0 ∧ r0.reserved = true := by
    rcases hrec0 with ⟨r0, -, hf⟩ | ⟨-, hf⟩
    · exact ⟨_, hf, rfl⟩
    · exact ⟨_, hf, rfl⟩
  obtain ⟨r0, hr0, hrsv0⟩ := hfound
  obtain ⟨r', hr', hrsv', hcl', hnin'⟩ :=
    whoHasRun_reserved_inv scope x hx ops t0 hok0 hops r0 hr0 hrsv0
      t' evs hrun
  exact ⟨r0, r', hr0, hrsv0, hr', hrsv', hcl', hnin'⟩

def pktC6 : ArpPkt :=
  ⟨1, 0x0800, 6, 4, 1, ⟨2, 2, 2, 2, 2, 2⟩, 9, ⟨0, 0, 0, 0, 0, 0⟩, 5⟩

theorem c6_reserved_never_claimed_witness :
    ∃ r0 r',
      arp_find arpFuel ((arp_reserve arp_root0 5).getD arp_root0) 5 =
        some r0 ∧
      r0.reserved = true ∧
      arp_find arpFuel
        ((whoHasRun none ((arp_reserve arp_root0 5).getD arp_root0)
          [(pktC6, 28, 0, 0)]).getD (arp_root0, [])).1 5 = some r' ∧
      r'.reserved = true ∧ r'.claimed = r0.claimed ∧
      ArpEvent.replySent 5 ∉
        ((whoHasRun none ((arp_reserve arp_root0 5).getD arp_root0)
          [(pktC6, 28, 0, 0)]).getD (arp_root0, [])).2 :=
  c6_reserved_never_claimed none arp_root0 5 [(pktC6, 28, 0, 0)]
    arp_root0_rootOk (by norm_num)
    (fun p hp => by
      rw [List.mem_singleton] at hp
      subst hp
      exact ⟨rfl, by decide, by decide⟩)
    _ rfl _ _ rfl
